import Mathlib

/-!
Verification of the `epacems_ramp_rates` repository against its specification.

The definitions below are a shallow embedding of `src/ramprate/build_features.py`
and `src/ramprate/cli.py`.  Pandas timestamps are modelled as integers counting
hours (the data is hourly, and the code converts all time differences to hours),
load values as `Option ℚ` (`none` models a missing / NaN float), and frames as
lists of rows.  Float arithmetic is idealised as exact rational arithmetic.
-/

namespace RampRates

/-! ## Edge detector: `_find_uptime` -/

/-- binarization `ser.gt(0)`: binarization of a load value.  A NaN float compares `False`
against `0`, so a missing value binarizes to `false`. -/
def binarize : Option ℚ → Bool
  | none => false
  | some x => decide (0 < x)

/-- the check `ser.iat[k] == 0`: the boundary-state check of `_find_uptime`.  A NaN float
is not `== 0`, so a missing value yields `false` here. -/
def isZeroVal : Option ℚ → Bool
  | none => false
  | some x => decide (x = 0)

/-- the positions `ser.index[diff.shift(-1) == 1]` of `_find_uptime`, into the
binarized series: position `i` (offset by `k`) such that `b i = false` and
`b (i+1) = true` — the last zero sample of a block before a non-zero block. -/
def startupIdxs : List Bool → ℕ → List ℕ
  | a :: b :: rest, k =>
    if a = false ∧ b = true then k :: startupIdxs (b :: rest) (k + 1)
    else startupIdxs (b :: rest) (k + 1)
  | _, _ => []

/-- the positions `ser.index[diff == -1]` of `_find_uptime`, into the binarized
series: position `j ≥ 1` such that `b (j-1) = true` and `b j = false` — the
first zero sample of a zero block. -/
def shutdownIdxs : List Bool → ℕ → List ℕ
  | a :: b :: rest, k =>
    if a = true ∧ b = false then (k + 1) :: shutdownIdxs (b :: rest) (k + 1)
    else shutdownIdxs (b :: rest) (k + 1)
  | _, _ => []

/-- One row of the event table returned by `_find_uptime`: a startup and a
shutdown timestamp, either of which may be missing (`pd.NaT`). -/
structure UnitEvent where
  startup : Option ℤ
  shutdown : Option ℤ
deriving DecidableEq, Repr

/-- the known startup timestamps
`startups = ser.index[diff.shift(-1) == 1]` of `_find_uptime`. -/
def startupsOf (ts : List ℤ) (vals : List (Option ℚ)) : List ℤ :=
  (startupIdxs (vals.map binarize) 0).map fun i => ts.getD i 0

/-- the known shutdown timestamps
`shutdowns = ser.index[diff == -1]` of `_find_uptime`. -/
def shutdownsOf (ts : List ℤ) (vals : List (Option ℚ)) : List ℤ :=
  (shutdownIdxs (vals.map binarize) 0).map fun i => ts.getD i 0

/-- the flag `generator_starts_with_zero = ser.iat[0] == 0` -/
def startsWithZero (vals : List (Option ℚ)) : Bool :=
  isZeroVal (vals.getD 0 none)

/-- the flag `generator_ends_with_zero = ser.iat[-1] == 0` -/
def endsWithZero (vals : List (Option ℚ)) : Bool :=
  isZeroVal (vals.getD (vals.length - 1) none)

/-- the column `events["startup"]` of `_find_uptime`: the NaT padding at the boundary
follows the `downtime` flag and the boundary-state checks. -/
def startupColOf (ts : List ℤ) (vals : List (Option ℚ)) (downtime : Bool) :
    List (Option ℤ) :=
  if downtime then
    if endsWithZero vals then (startupsOf ts vals).map some ++ [none]
    else (startupsOf ts vals).map some
  else
    if startsWithZero vals then (startupsOf ts vals).map some
    else none :: (startupsOf ts vals).map some

/-- the column `events["shutdown"]` of `_find_uptime`. -/
def shutdownColOf (ts : List ℤ) (vals : List (Option ℚ)) (downtime : Bool) :
    List (Option ℤ) :=
  if downtime then
    if startsWithZero vals then none :: (shutdownsOf ts vals).map some
    else (shutdownsOf ts vals).map some
  else
    if endsWithZero vals then (shutdownsOf ts vals).map some
    else (shutdownsOf ts vals).map some ++ [none]

/-- whether `events["startup"]` is built through a padded branch and hence is a
`pd.Series` (the `nan.append(...)` / `...append(nan)` branches, which use
`ignore_index=True` and so carry a fresh `RangeIndex`) rather than the raw
`DatetimeIndex` `startups`.  Reading `_find_uptime` off the source: in downtime
mode the startup column is padded iff the series ends with zero; in uptime mode
iff the series does not start with zero. -/
def startupColIsSeries (vals : List (Option ℚ)) (downtime : Bool) : Bool :=
  if downtime then endsWithZero vals else !startsWithZero vals

/-- whether `events["shutdown"]` is a padded `pd.Series` (see
`startupColIsSeries`): in downtime mode iff the series starts with zero, in
uptime mode iff it does not end with zero. -/
def shutdownColIsSeries (vals : List (Option ℚ)) (downtime : Bool) : Bool :=
  if downtime then startsWithZero vals else !endsWithZero vals

/-- padding a column on the right with missing values up to length `n`,
as pandas outer alignment of two `RangeIndex` Series does to the shorter one. -/
def padTo (n : ℕ) (l : List (Option ℤ)) : List (Option ℤ) :=
  l ++ List.replicate (n - l.length) none

/-- the function `_find_uptime(ser, downtime=dt)` for a series with index `ts` and values
`vals`.  Returns `none` where pandas raises: on an empty series
(`ser.iat[0]` is an `IndexError`), or when `pd.DataFrame(events)` fails.  The
constructor semantics: columns of equal length always assemble; two columns of
different lengths assemble only when both are `pd.Series` (both on padded
branches), in which case pandas outer-aligns their `RangeIndex`es, padding the
shorter column with `NaT` at the tail; a length mismatch involving a raw
`DatetimeIndex` column raises `ValueError`. -/
def find_uptime (ts : List ℤ) (vals : List (Option ℚ)) (downtime : Bool) :
    Option (List UnitEvent) :=
  if vals = [] then none
  else if (startupColOf ts vals downtime).length = (shutdownColOf ts vals downtime).length then
    some (((startupColOf ts vals downtime).zip (shutdownColOf ts vals downtime)).map
      fun p => ⟨p.1, p.2⟩)
  else if startupColIsSeries vals downtime ∧ shutdownColIsSeries vals downtime then
    some (((padTo (max (startupColOf ts vals downtime).length
          (shutdownColOf ts vals downtime).length) (startupColOf ts vals downtime)).zip
        (padTo (max (startupColOf ts vals downtime).length
          (shutdownColOf ts vals downtime).length) (shutdownColOf ts vals downtime))).map
      fun p => ⟨p.1, p.2⟩)
  else none

/-- Modelled from the spec: the claimed startup placement of C1 — "the sample
immediately following the zero→non-zero transition (the non-zero side, the
diff = +1 location)", i.e. positions `j ≥ 1` with `b (j-1) = false` and
`b j = true`. -/
def specClaimStartupIdxs : List Bool → ℕ → List ℕ
  | a :: b :: rest, k =>
    if a = false ∧ b = true then (k + 1) :: specClaimStartupIdxs (b :: rest) (k + 1)
    else specClaimStartupIdxs (b :: rest) (k + 1)
  | _, _ => []

/-! ## Distance to transients: `_find_edges`, `_distance_from_downtime`,
`calc_distance_from_downtime` -/

/-- One row of the per-unit CEMS frame: `operating_datetime_utc` (in hours)
and `gross_load_mw`. -/
structure CemsRow where
  ts : ℤ
  load : Option ℚ
deriving DecidableEq, Repr

/-- the binarized load as the int8 the code diffs. -/
def bint (v : Option ℚ) : ℤ := if binarize v then 1 else 0

/-- the column `cems["binarized"].diff().where(cems["unit_id_epa"].diff().eq(0))`, for the
rows of one unit: the first row of a unit gets `none` (the diff across the
unit boundary is masked to NaN); row `i ≥ 1` gets `b i - b (i-1)`. -/
def binaryDiffs (loads : List (Option ℚ)) : List (Option ℤ) :=
  match loads with
  | [] => []
  | _ :: _ => none :: (loads.zip loads.tail).map fun p => some (bint p.2 - bint p.1)

/-- the column `cems["startups"]`: the row's own timestamp where the binary diff is `+1`,
else NaT. -/
def startupMarks (ts : List ℤ) (loads : List (Option ℚ)) : List (Option ℤ) :=
  List.zipWith (fun t d => if d = some 1 then some t else none) ts (binaryDiffs loads)

/-- the column `cems["shutdowns"]`: the row's own timestamp where the binary diff is `-1`,
else NaT. -/
def shutdownMarks (ts : List ℤ) (loads : List (Option ℚ)) : List (Option ℤ) :=
  List.zipWith (fun t d => if d = some (-1) then some t else none) ts (binaryDiffs loads)

/-- pandas `ffill` with the value carried in from above. -/
def ffill (acc : Option ℤ) : List (Option ℤ) → List (Option ℤ)
  | [] => []
  | x :: xs =>
    match x with
    | some v => some v :: ffill (some v) xs
    | none => acc :: ffill acc xs

/-- pandas `bfill`, as a right-to-left scan; the second component is the value
carried out past the head. -/
def bfillAux : List (Option ℤ) → List (Option ℤ) × Option ℤ
  | [] => ([], none)
  | x :: xs =>
    let r := bfillAux xs
    match x with
    | some v => (some v :: r.1, some v)
    | none => (r.2 :: r.1, r.2)

/-- pandas `bfill`. -/
def bfill (l : List (Option ℤ)) : List (Option ℤ) := (bfillAux l).1

/-- One row of the frame after `calc_distance_from_downtime`. -/
structure DistRow where
  ts : ℤ
  load : Option ℚ
  hoursFromStartup : ℤ
  hoursToShutdown : ℤ
  hoursDistance : ℤ
deriving DecidableEq, Repr

/-- the `startups` column after the forward fill and the
`fillna(x.index[0][1] - offset)` fallback (`boundary_offset_hours = 24`). -/
def sFilledOf (rows : List CemsRow) : List ℤ :=
  match rows with
  | [] => []
  | r0 :: _ =>
    (ffill none (startupMarks (rows.map (·.ts)) (rows.map (·.load)))).map
      fun o => o.getD (r0.ts - 24)

/-- the `shutdowns` column after the backward fill and the
`fillna(x.index[-1][1] + offset)` fallback. -/
def shFilledOf (rows : List CemsRow) : List ℤ :=
  match rows with
  | [] => []
  | _ :: _ =>
    (bfill (shutdownMarks (rows.map (·.ts)) (rows.map (·.load)))).map
      fun o => o.getD ((rows.map (·.ts)).getLastD 0 + 24)

/-- the composition `_find_edges` plus `_distance_from_downtime` on the rows of one unit
(the `groupby(level="unit_id_epa").transform` applies the fills per unit),
followed by the `hours_distance` column of `calc_distance_from_downtime`;
the time differences are converted to hours. -/
def calcDistanceUnit (rows : List CemsRow) : List DistRow :=
  (rows.zip ((sFilledOf rows).zip (shFilledOf rows))).map fun p =>
    { ts := p.1.ts, load := p.1.load,
      hoursFromStartup := p.1.ts - p.2.1,
      hoursToShutdown := p.2.2 - p.1.ts,
      hoursDistance := min (p.1.ts - p.2.1) (p.2.2 - p.1.ts) }

/-- the function `calc_distance_from_downtime` over a frame sorted by
`(unit_id_epa, operating_datetime_utc)`: one entry per unit, in index order. -/
def calcDistanceFrame (units : List (ℤ × List CemsRow)) : List (ℤ × List DistRow) :=
  units.map fun u => (u.1, calcDistanceUnit u.2)

/-- the `simple_EIA_UNIT_TYPE` labels produced by `TECH_TYPE_MAP`. -/
inductive TechType
  | steam_turbine
  | combined_cycle
  | gas_turbine
  | internal_combustion
deriving DecidableEq, Repr

/-- the table `EXCLUSION_SIZE_HOURS` (`cli.py`; the copy in `build_features.py` is
identical). -/
def EXCLUSION_SIZE_HOURS : TechType → ℤ
  | .steam_turbine => 5
  | .combined_cycle => 7
  | .gas_turbine => -1
  | .internal_combustion => -1

/-- the flag `cems["exclude_ramp"] = cems["hours_distance"] <=
cems["simple_EIA_UNIT_TYPE"].map(EXCLUSION_SIZE_HOURS)` in `process_subset`. -/
def exclude_ramp (tech : TechType) (row : DistRow) : Bool :=
  row.hoursDistance ≤ EXCLUSION_SIZE_HOURS tech

/-- the `classify_startup=True` branch of `calc_distance_from_downtime`:
`nearest_to_startup = hours_from_startup < hours_to_shutdown`, with rows at an
exact midpoint (`hours_from_startup == hours_to_shutdown`) set to `True` where
a boolean drawn by `np.random.default_rng(seed=42).choice(..., size=len(cems))`
is `True`.  `rngStream s n` models the first `n` boolean draws of a numpy
generator seeded with `s` (a pure function of the seed); the code passes the
literal seed 42. -/
def nearest_to_startup (rngStream : ℕ → ℕ → List Bool)
    (units : List (ℤ × List CemsRow)) : List Bool :=
  let rows := ((calcDistanceFrame units).map (·.2)).flatten
  let draws := rngStream 42 rows.length
  List.zipWith
    (fun (r : DistRow) (d : Bool) =>
      if r.hoursFromStartup = r.hoursToShutdown ∧ d then true
      else decide (r.hoursFromStartup < r.hoursToShutdown))
    rows draws

/-! ## Fuel-type mapping in `aggregate_subcomponents` -/

/-- the table `CAMD_FUEL_MAP` -/
def CAMD_FUEL_MAP : List (String × String) :=
  [("Pipeline Natural Gas", "gas"), ("Coal", "coal"), ("Diesel Oil", "oil"),
   ("Natural Gas", "gas"), ("Process Gas", "gas"), ("Residual Oil", "oil"),
   ("Other Gas", "gas"), ("Wood", "other"), ("Other Oil", "oil"),
   ("Coal Refuse", "coal"), ("Petroleum Coke", "oil"),
   ("Tire Derived Fuel", "other"), ("Other Solid Fuel", "other")]

/-- the table `EIA_FUEL_MAP` -/
def EIA_FUEL_MAP : List (String × String) :=
  [("AB", "other"), ("ANT", "coal"), ("BFG", "gas"), ("BIT", "coal"),
   ("BLQ", "other"), ("CBL", "Coal"), ("DFO", "oil"), ("JF", "oil"),
   ("KER", "oil"), ("LFG", "gas"), ("LIG", "coal"), ("MSB", "other"),
   ("MSN", "other"), ("MSW", "other"), ("MWH", "other"), ("NG", "gas"),
   ("OBG", "gas"), ("OBL", "other"), ("OBS", "other"), ("OG", "gas"),
   ("OTH", "other"), ("PC", "oil"), ("PG", "gas"), ("PUR", "other"),
   ("RC", "coal"), ("RFO", "oil"), ("SC", "coal"), ("SGC", "gas"),
   ("SGP", "gas"), ("SLW", "other"), ("SUB", "coal"), ("SUN", "gas"),
   ("TDF", "other"), ("WC", "coal"), ("WDL", "other"), ("WDS", "other"),
   ("WH", "other"), ("WO", "oil")]

/-- the mapping `xwalk[col].map(mapping)`: a key absent from the dict maps to NaN, a NaN
key stays NaN. -/
def mapFuelCode (mapping : List (String × String)) (c : Option String) :
    Option String :=
  c.bind fun s => mapping.lookup s

/-- the NaN-count check `aggregate_subcomponents` performs on one fuel-type
column: map the raw codes, and raise if the mapped column has strictly more
missing values than the raw column. -/
def checkFuelColumn (colName : String) (mapping : List (String × String))
    (col : List (Option String)) : Except String (List (Option String)) :=
  let mapped := col.map (mapFuelCode mapping)
  if (col.countP (·.isNone)) < (mapped.countP (·.isNone)) then
    Except.error ("there is a category in " ++ colName ++ " not present in mapping")
  else
    Except.ok mapped

/-- the fuel-mapping loop of `aggregate_subcomponents`: `CAMD_FUEL_TYPE` is
mapped through `CAMD_FUEL_MAP` and checked, then `EIA_FUEL_TYPE` through
`EIA_FUEL_MAP`. -/
def aggregate_subcomponents_fuel (camd eia : List (Option String)) :
    Except String (List (Option String) × List (Option String)) := do
  let c ← checkFuelColumn "CAMD_FUEL_TYPE" CAMD_FUEL_MAP camd
  let e ← checkFuelColumn "EIA_FUEL_TYPE" EIA_FUEL_MAP eia
  return (c, e)

/-! ## Component graph: `_make_surrogate_ids`,
`_subcomponent_ids_from_prepped_crosswalk`, `make_subcomponent_ids` -/

/-- One crosswalk row after the join with the CEMS unit keys: the composite
combustor key `(CAMD_PLANT_ID, CAMD_UNIT_ID)`, the composite generator key
`(CAMD_PLANT_ID, EIA_GENERATOR_ID)`, and the remaining columns abstracted as
`attrs`. -/
structure XRow where
  plant : ℤ
  camdUnit : ℤ
  eiaGen : ℤ
  attrs : ℤ
deriving DecidableEq, Repr

/-- lexicographic strict order on composite keys; pandas `groupby` sorts keys,
so `ngroup()` numbers a key by its rank in this order. -/
def keyLt (a b : ℤ × ℤ) : Bool := a.1 < b.1 ∨ (a.1 = b.1 ∧ a.2 < b.2)

/-- the combustor key of a row. -/
def combKey (r : XRow) : ℤ × ℤ := (r.plant, r.camdUnit)

/-- the generator key of a row. -/
def genKey (r : XRow) : ℤ × ℤ := (r.plant, r.eiaGen)

/-- the numbering `groupby(by=["CAMD_PLANT_ID", "CAMD_UNIT_ID"]).ngroup()`: the number of
distinct combustor keys strictly smaller than the row's key. -/
def combustor_id (rows : List XRow) (r : XRow) : ℕ :=
  ((rows.map combKey).dedup.filter fun k => keyLt k (combKey r)).length

/-- the number of distinct combustor keys; every combustor id is below this. -/
def numCombKeys (rows : List XRow) : ℕ := (rows.map combKey).dedup.length

/-- the column `generator_id`: `ngroup()` over the generator key, offset by
`combustor_id.max() + 1 = numCombKeys` so the two id spaces never collide. -/
def generator_id (rows : List XRow) (r : XRow) : ℕ :=
  ((rows.map genKey).dedup.filter fun k => keyLt k (genKey r)).length + numCombKeys rows

/-- the edge list handed to networkx: surrogate source and target ids plus the
row as edge attributes. -/
def surrogateEdges (rows : List XRow) : List (ℕ × ℕ × XRow) :=
  rows.map fun r => (combustor_id rows r, generator_id rows r, r)

/-- one step of `nx.from_pandas_edgelist` edge insertion: a repeated node pair
overwrites the existing edge's attributes in place, a new pair is appended. -/
def dedupStep (acc : List (ℕ × ℕ × XRow)) (e : ℕ × ℕ × XRow) :
    List (ℕ × ℕ × XRow) :=
  if acc.any fun x => x.1 = e.1 ∧ x.2.1 = e.2.1 then
    acc.map fun x => if x.1 = e.1 ∧ x.2.1 = e.2.1 then e else x
  else acc ++ [e]

/-- the graph `nx.from_pandas_edgelist` builds on an undirected `Graph` keeps one edge per node
pair: the edge sits at the insertion position of the pair's first occurrence
and carries the attributes of the pair's last occurrence. -/
def dedupEdges (edges : List (ℕ × ℕ × XRow)) : List (ℕ × ℕ × XRow) :=
  edges.foldl dedupStep []

/-- the node pairs of an edge list. -/
def edgeKeys (edges : List (ℕ × ℕ × XRow)) : List (ℕ × ℕ) :=
  edges.map fun e => (e.1, e.2.1)

/-- the nodes of the graph, as a list. -/
def nodeList (es : List (ℕ × ℕ)) : List ℕ :=
  (es.map Prod.fst ++ es.map Prod.snd).dedup

/-- the nodes of the graph, as a finset. -/
def nodeFinset (es : List (ℕ × ℕ)) : Finset ℕ :=
  (es.map Prod.fst ++ es.map Prod.snd).toFinset

/-- one step of neighbourhood expansion in the undirected graph. -/
def stepF (es : List (ℕ × ℕ)) (s : Finset ℕ) : Finset ℕ :=
  s ∪ es.foldr
    (fun e acc =>
      (if e.1 ∈ s then {e.2} else ∅) ∪ (if e.2 ∈ s then {e.1} else ∅) ∪ acc)
    ∅

/-- the connected component of `v`: saturate the neighbourhood map (one more
iteration than there are nodes always reaches the fixed point). -/
def closure (es : List (ℕ × ℕ)) (v : ℕ) : Finset ℕ :=
  (stepF es)^[(nodeFinset es).card + 1] {v}

/-- a canonical representative of `v`'s connected component. -/
def compRep (es : List (ℕ × ℕ)) (v : ℕ) : ℕ :=
  WithTop.untop' v (closure es v).min

/-- component representatives in node order.  `nx.connected_components`
enumerates the components of the partition in BFS discovery order; the claims
checked here are invariant under the injective renumbering, so components are
numbered by the position of their representative. -/
def repList (es : List (ℕ × ℕ)) : List ℕ :=
  ((nodeList es).map (compRep es)).dedup

/-- the `component_id` attached to every edge of `v`'s component. -/
def component_id_of (es : List (ℕ × ℕ)) (v : ℕ) : ℕ :=
  (repList es).indexOf (compRep es v)

/-- node insertion into an `nx.Graph`: a node is recorded at its first
occurrence, later occurrences change nothing. -/
def insertNode (l : List ℕ) (n : ℕ) : List ℕ :=
  if n ∈ l then l else l ++ [n]

/-- the graph's nodes in insertion order: `from_pandas_edgelist` processes the
edge rows in order, adding first the source then the target of each row. -/
def nodeOrderOf (edges : List (ℕ × ℕ × XRow)) : List ℕ :=
  edges.foldl (fun acc e => insertNode (insertNode acc e.1) e.2.1) []

/-- the position of a node in insertion order. -/
def nodePos (edges : List (ℕ × ℕ × XRow)) (n : ℕ) : ℕ :=
  (nodeOrderOf edges).indexOf n

/-- whether `G.edges()` reports edge `e` while visiting node `n`: `n` is an
endpoint of `e` and the other endpoint has not been visited yet, i.e. comes
later in node insertion order (so each edge is reported exactly once, at its
earlier endpoint). -/
def emitAt (edges : List (ℕ × ℕ × XRow)) (n : ℕ) (e : ℕ × ℕ × XRow) : Bool :=
  decide ((e.1 = n ∧ nodePos edges n < nodePos edges e.2.1) ∨
    (e.2.1 = n ∧ nodePos edges n < nodePos edges e.1))

/-- the order in which `G.edges()` — and hence `nx.to_pandas_edgelist` —
reports the edges of the graph: for each node in insertion order, its incident
not-yet-reported edges in adjacency (= edge insertion) order. -/
def nxEdgeOrder (edges : List (ℕ × ℕ × XRow)) : List (ℕ × ℕ × XRow) :=
  (nodeOrderOf edges).flatMap fun n => edges.filter (emitAt edges n)

/-- the function `make_subcomponent_ids` after the crosswalk has been inner-joined with the
CEMS unit keys (`key_map`): assign surrogate ids, build the graph, label the
connected components, and return the edge rows — in the adjacency-traversal
order `to_pandas_edgelist` emits them — with `component_id` prepended before
the original columns. -/
def make_subcomponent_ids (rows : List XRow) : List (ℕ × XRow) :=
  let edges := dedupEdges (surrogateEdges rows)
  let es := edgeKeys edges
  (nxEdgeOrder edges).map fun e => (component_id_of es e.1, e.2.2)

/-- the adjacency relation of the undirected graph (specification-level;
`closure` computes its reflexive-transitive closure). -/
def adjP (es : List (ℕ × ℕ)) (u v : ℕ) : Prop :=
  ∃ e ∈ es, (e.1 = u ∧ e.2 = v) ∨ (e.1 = v ∧ e.2 = u)

/-! ## Ramp extrema: steps 3-4 of the ramp calculation in
`process_partition` / `process_subset` -/

/-- One row of `component_timeseries` for one component: timestamp, summed
gross load, and the OR-ed exclusion flag. -/
structure CtsRow where
  ts : ℤ
  load : ℤ
  exclude : Bool
deriving DecidableEq, Repr

/-- the column `component_timeseries.groupby("component_id")[["gross_load_mw"]].diff()`:
the ramp column of one component; NaN at the component's first row. -/
def rampCol (rows : List CtsRow) : List (Option ℤ) :=
  match rows with
  | [] => []
  | _ :: _ => none :: (rows.zip rows.tail).map fun p => some (p.2.load - p.1.load)

/-- the selection `component_timeseries.loc[~component_timeseries["exclude_ramp"], ["ramp"]]`
restricted to one component: the (timestamp, ramp) pairs of the rows that are
not excluded. -/
def filteredRamps (rows : List CtsRow) : List (ℤ × Option ℤ) :=
  ((rows.zip (rampCol rows)).filter fun p => !p.1.exclude).map fun p => (p.1.ts, p.2)

/-- the per-component ramp statistics produced by the `.agg` call. -/
structure RampStats where
  max : Option ℤ
  min : Option ℤ
  idxmax : ℤ
  idxmin : ℤ
deriving DecidableEq, Repr

/-- the aggregation `.agg(["max", "min", lambda x: x.idxmax()[1], lambda x: x.idxmin()[1]])`
on one non-empty group: `max`/`min` skip NaN and give NaN on an all-NaN group,
but `idxmax` of an all-NaN series yields no index label, so the trailing `[1]`
subscript raises. -/
def aggGroup (g : List (ℤ × Option ℤ)) : Except String RampStats :=
  match (g.filterMap (·.2)).max?, (g.filterMap (·.2)).min? with
  | some mx, some mn =>
    match (g.find? fun p => p.2 = some mx), (g.find? fun p => p.2 = some mn) with
    | some pmax, some pmin => .ok ⟨some mx, some mn, pmax.1, pmin.1⟩
    | _, _ => .error "internal"
  | _, _ => .error "idxmax of an all-NaN group raises"

/-- the grouped ramp-extrema aggregation: a component whose rows were all
excluded has no rows left in the filtered frame and is simply absent from the
aggregation result. -/
def processRamps : List (ℤ × List CtsRow) → Except String (List (ℤ × RampStats))
  | [] => .ok []
  | (cid, rows) :: rest =>
    if (filteredRamps rows).isEmpty then processRamps rest
    else do
      let s ← aggGroup (filteredRamps rows)
      let tail ← processRamps rest
      return (cid, s) :: tail

/-- a row of the final `ramps` table, after the `max_abs` columns are added. -/
structure FullRow where
  max : Option ℤ
  min : Option ℤ
  idxmax : ℤ
  idxmin : ℤ
  max_abs : Option ℤ
  idxmax_abs : ℤ
deriving DecidableEq, Repr

/-- the `max_abs` / `idxmax_abs` step: `max_abs = max(|max|, |min|)`
(`.abs().max(axis=1)` skips NaN), and `idxmax_abs` is `idxmax` where
`max >= abs(min)` (ties go to `idxmax`) and `idxmin` otherwise. -/
def maxAbsRow (s : RampStats) : FullRow :=
  let ma : Option ℤ :=
    match s.max, s.min with
    | some a, some b => some (Max.max |a| |b|)
    | some a, none => some |a|
    | none, some b => some |b|
    | none, none => none
  let cond : Bool :=
    match s.max, s.min with
    | some a, some b => decide (|b| ≤ a)
    | _, _ => false
  ⟨s.max, s.min, s.idxmax, s.idxmin, ma, if cond then s.idxmax else s.idxmin⟩

/-- ramp-extrema portion of the component aggregates (steps 3-4). -/
def process_partition_ramps (comps : List (ℤ × List CtsRow)) :
    Except String (List (ℤ × FullRow)) :=
  (processRamps comps).map fun l => l.map fun p => (p.1, maxAbsRow p.2)

/-- the left join of `component_aggs` with `ramps`: a component absent from
`ramps` gets missing values in every ramp column. -/
def lookupAgg (res : List (ℤ × FullRow)) (cid : ℤ) : Option FullRow :=
  (res.find? fun p => p.1 = cid).map (·.2)

instance {ε α : Type} [DecidableEq ε] [DecidableEq α] : DecidableEq (Except ε α) :=
  fun x y =>
  match x, y with
  | .ok a, .ok b =>
    if h : a = b then .isTrue (by rw [h]) else .isFalse (by intro hc; cases hc; exact h rfl)
  | .error a, .error b =>
    if h : a = b then .isTrue (by rw [h]) else .isFalse (by intro hc; cases hc; exact h rfl)
  | .ok _, .error _ => .isFalse (by intro hc; cases hc)
  | .error _, .ok _ => .isFalse (by intro hc; cases hc)

/-! ## Lemmas about the edge detector -/

theorem startupIdxs_cons2 (a c : Bool) (r : List Bool) (k : ℕ) :
    startupIdxs (a :: c :: r) k =
      if a = false ∧ c = true then k :: startupIdxs (c :: r) (k + 1)
      else startupIdxs (c :: r) (k + 1) := rfl

theorem shutdownIdxs_cons2 (a c : Bool) (r : List Bool) (k : ℕ) :
    shutdownIdxs (a :: c :: r) k =
      if a = true ∧ c = false then (k + 1) :: shutdownIdxs (c :: r) (k + 1)
      else shutdownIdxs (c :: r) (k + 1) := rfl

theorem startupIdxs_lb (b : List Bool) : ∀ (k i : ℕ), i ∈ startupIdxs b k → k ≤ i := by
  induction b with
  | nil => intro k i h; simp [startupIdxs] at h
  | cons a rest ih =>
    intro k i h
    cases rest with
    | nil => simp [startupIdxs] at h
    | cons c r =>
      rw [startupIdxs_cons2] at h
      split at h
      · rcases List.mem_cons.mp h with h | h
        · omega
        · have := ih (k + 1) i h; omega
      · have := ih (k + 1) i h; omega

theorem shutdownIdxs_lb (b : List Bool) : ∀ (k i : ℕ), i ∈ shutdownIdxs b k → k + 1 ≤ i := by
  induction b with
  | nil => intro k i h; simp [shutdownIdxs] at h
  | cons a rest ih =>
    intro k i h
    cases rest with
    | nil => simp [shutdownIdxs] at h
    | cons c r =>
      rw [shutdownIdxs_cons2] at h
      split at h
      · rcases List.mem_cons.mp h with h | h
        · omega
        · have := ih (k + 1) i h; omega
      · have := ih (k + 1) i h; omega

theorem startupIdxs_ub (b : List Bool) : ∀ (k i : ℕ), i ∈ startupIdxs b k → i + 1 < k + b.length := by
  induction b with
  | nil => intro k i h; simp [startupIdxs] at h
  | cons a rest ih =>
    intro k i h
    cases rest with
    | nil => simp [startupIdxs] at h
    | cons c r =>
      rw [startupIdxs_cons2] at h
      simp only [List.length_cons]
      split at h
      · rcases List.mem_cons.mp h with h | h
        · omega
        · have := ih (k + 1) i h; simp only [List.length_cons] at this; omega
      · have := ih (k + 1) i h; simp only [List.length_cons] at this; omega

theorem shutdownIdxs_ub (b : List Bool) : ∀ (k i : ℕ), i ∈ shutdownIdxs b k → i < k + b.length := by
  induction b with
  | nil => intro k i h; simp [shutdownIdxs] at h
  | cons a rest ih =>
    intro k i h
    cases rest with
    | nil => simp [shutdownIdxs] at h
    | cons c r =>
      rw [shutdownIdxs_cons2] at h
      simp only [List.length_cons]
      split at h
      · rcases List.mem_cons.mp h with h | h
        · omega
        · have := ih (k + 1) i h; simp only [List.length_cons] at this; omega
      · have := ih (k + 1) i h; simp only [List.length_cons] at this; omega

/-- interleaving of known startups and shutdowns, uptime pairing: when the
series starts with a zero block, the `m`-th startup precedes the `m`-th
shutdown; when it starts with a non-zero block, the `m`-th startup precedes
the `(m+1)`-st shutdown. -/
theorem interUp (b : List Bool) : ∀ (k : ℕ),
    (b.head? = some false → ∀ m i j, (startupIdxs b k).get? m = some i →
      (shutdownIdxs b k).get? m = some j → i < j) ∧
    (b.head? = some true → ∀ m i j, (startupIdxs b k).get? m = some i →
      (shutdownIdxs b k).get? (m + 1) = some j → i < j) := by
  induction b with
  | nil => intro k; constructor <;> (intro h; simp at h)
  | cons a rest ih =>
    intro k
    cases rest with
    | nil =>
      constructor <;> (intro _ m i j hs hd; simp [startupIdxs] at hs)
    | cons c r =>
      constructor
      · intro ha m i j hs hd
        have ha' : a = false := by simpa using ha
        subst ha'
        cases c with
        | true =>
          rw [startupIdxs_cons2] at hs
          rw [shutdownIdxs_cons2] at hd
          simp only [and_self, reduceIte, reduceCtorEq, false_and, if_false] at hs hd
          cases m with
          | zero =>
            rw [List.get?_cons_zero] at hs
            obtain rfl : k = i := by injection hs
            have hj := shutdownIdxs_lb _ _ _ (List.get?_mem hd)
            omega
          | succ m =>
            rw [List.get?_cons_succ] at hs
            exact (ih (k + 1)).2 rfl m i j hs hd
        | false =>
          rw [startupIdxs_cons2] at hs
          rw [shutdownIdxs_cons2] at hd
          simp only [reduceCtorEq, and_false, false_and, if_false] at hs hd
          exact (ih (k + 1)).1 rfl m i j hs hd
      · intro ha m i j hs hd
        have ha' : a = true := by simpa using ha
        subst ha'
        cases c with
        | true =>
          rw [startupIdxs_cons2] at hs
          rw [shutdownIdxs_cons2] at hd
          simp only [reduceCtorEq, false_and, and_false, if_false] at hs hd
          exact (ih (k + 1)).2 rfl m i j hs hd
        | false =>
          rw [startupIdxs_cons2] at hs
          rw [shutdownIdxs_cons2] at hd
          simp only [reduceCtorEq, false_and, and_self, if_false, reduceIte] at hs hd
          rw [List.get?_cons_succ] at hd
          exact (ih (k + 1)).1 rfl m i j hs hd

/-- interleaving of known startups and shutdowns, downtime pairing: when the
series starts with a zero block, the `m`-th shutdown precedes the `(m+1)`-st
startup; when it starts with a non-zero block, the `m`-th shutdown precedes
the `m`-th startup (both are within the `(m+1)`-st zero block). -/
theorem interDown (b : List Bool) : ∀ (k : ℕ),
    (b.head? = some false → ∀ m i j, (shutdownIdxs b k).get? m = some j →
      (startupIdxs b k).get? (m + 1) = some i → j ≤ i) ∧
    (b.head? = some true → ∀ m i j, (shutdownIdxs b k).get? m = some j →
      (startupIdxs b k).get? m = some i → j ≤ i) := by
  induction b with
  | nil => intro k; constructor <;> (intro h; simp at h)
  | cons a rest ih =>
    intro k
    cases rest with
    | nil =>
      constructor <;> (intro _ m i j hd hs; simp [shutdownIdxs] at hd)
    | cons c r =>
      constructor
      · intro ha m i j hd hs
        have ha' : a = false := by simpa using ha
        subst ha'
        cases c with
        | true =>
          rw [shutdownIdxs_cons2] at hd
          rw [startupIdxs_cons2] at hs
          simp only [reduceCtorEq, and_self, false_and, and_false, if_false, reduceIte] at hd hs
          rw [List.get?_cons_succ] at hs
          exact (ih (k + 1)).2 rfl m i j hd hs
        | false =>
          rw [shutdownIdxs_cons2] at hd
          rw [startupIdxs_cons2] at hs
          simp only [reduceCtorEq, false_and, and_false, if_false] at hd hs
          exact (ih (k + 1)).1 rfl m i j hd hs
      · intro ha m i j hd hs
        have ha' : a = true := by simpa using ha
        subst ha'
        cases c with
        | true =>
          rw [shutdownIdxs_cons2] at hd
          rw [startupIdxs_cons2] at hs
          simp only [reduceCtorEq, and_false, false_and, if_false] at hd hs
          exact (ih (k + 1)).2 rfl m i j hd hs
        | false =>
          rw [shutdownIdxs_cons2] at hd
          rw [startupIdxs_cons2] at hs
          simp only [reduceCtorEq, and_self, false_and, and_false, if_false, reduceIte] at hd hs
          cases m with
          | zero =>
            rw [List.get?_cons_zero] at hd
            obtain rfl : k + 1 = j := by injection hd
            have hi := startupIdxs_lb _ _ _ (List.get?_mem hs)
            omega
          | succ m =>
            rw [List.get?_cons_succ] at hd
            exact (ih (k + 1)).1 rfl m i j hd hs

/-- positions produced by `startupIdxs` are exactly the zero samples directly
followed by a non-zero sample. -/
theorem mem_startupIdxs (b : List Bool) : ∀ (k i : ℕ),
    i ∈ startupIdxs b k ↔
      ∃ m, i = k + m ∧ b.get? m = some false ∧ b.get? (m + 1) = some true := by
  induction b with
  | nil =>
    intro k i
    simp [startupIdxs]
  | cons a rest ih =>
    intro k i
    cases rest with
    | nil =>
      simp only [startupIdxs, List.not_mem_nil, false_iff]
      rintro ⟨m, -, -, h2⟩
      cases m <;> simp at h2
    | cons c r =>
      rw [startupIdxs_cons2]
      constructor
      · intro h
        have hrec : i ∈ startupIdxs (c :: r) (k + 1) →
            ∃ m, i = k + m ∧ (a :: c :: r).get? m = some false ∧
              (a :: c :: r).get? (m + 1) = some true := by
          intro hmem
          obtain ⟨m, rfl, h1, h2⟩ := (ih (k + 1) _).mp hmem
          exact ⟨m + 1, by omega, by simpa using h1, by simpa using h2⟩
        split at h
        · rcases List.mem_cons.mp h with rfl | h
          · next hc =>
            exact ⟨0, by omega, by simp [hc.1], by simp [hc.2]⟩
          · exact hrec h
        · exact hrec h
      · rintro ⟨m, rfl, h1, h2⟩
        cases m with
        | zero =>
          have h1' : a = false := by simpa using h1
          have h2' : c = true := by simpa using h2
          rw [if_pos ⟨h1', h2'⟩]
          simp
        | succ m =>
          rw [List.get?_cons_succ] at h1 h2
          have hmem : k + 1 + m ∈ startupIdxs (c :: r) (k + 1) :=
            (ih (k + 1) _).mpr ⟨m, rfl, h1, h2⟩
          have : k + (m + 1) = k + 1 + m := by omega
          rw [this]
          split
          · exact List.mem_cons_of_mem _ hmem
          · exact hmem

/-- positions produced by `shutdownIdxs` are exactly the zero samples directly
preceded by a non-zero sample. -/
theorem mem_shutdownIdxs (b : List Bool) : ∀ (k j : ℕ),
    j ∈ shutdownIdxs b k ↔
      ∃ m, j = k + m + 1 ∧ b.get? m = some true ∧ b.get? (m + 1) = some false := by
  induction b with
  | nil =>
    intro k j
    simp [shutdownIdxs]
  | cons a rest ih =>
    intro k j
    cases rest with
    | nil =>
      simp only [shutdownIdxs, List.not_mem_nil, false_iff]
      rintro ⟨m, -, -, h2⟩
      cases m <;> simp at h2
    | cons c r =>
      rw [shutdownIdxs_cons2]
      constructor
      · intro h
        have hrec : j ∈ shutdownIdxs (c :: r) (k + 1) →
            ∃ m, j = k + m + 1 ∧ (a :: c :: r).get? m = some true ∧
              (a :: c :: r).get? (m + 1) = some false := by
          intro hmem
          obtain ⟨m, rfl, h1, h2⟩ := (ih (k + 1) _).mp hmem
          exact ⟨m + 1, by omega, by simpa using h1, by simpa using h2⟩
        split at h
        · rcases List.mem_cons.mp h with rfl | h
          · next hc =>
            exact ⟨0, by omega, by simp [hc.1], by simp [hc.2]⟩
          · exact hrec h
        · exact hrec h
      · rintro ⟨m, rfl, h1, h2⟩
        cases m with
        | zero =>
          have h1' : a = true := by simpa using h1
          have h2' : c = false := by simpa using h2
          rw [if_pos ⟨h1', h2'⟩]
          simp
        | succ m =>
          rw [List.get?_cons_succ] at h1 h2
          have hmem : k + 1 + m + 1 ∈ shutdownIdxs (c :: r) (k + 1) :=
            (ih (k + 1) _).mpr ⟨m, rfl, h1, h2⟩
          have : k + (m + 1) + 1 = k + 1 + m + 1 := by omega
          rw [this]
          split
          · exact List.mem_cons_of_mem _ hmem
          · exact hmem

theorem startupIdxs_all_false (b : List Bool) (hb : ∀ x ∈ b, x = false) :
    ∀ k, startupIdxs b k = [] := by
  intro k
  rw [List.eq_nil_iff_forall_not_mem]
  intro i hi
  obtain ⟨m, -, -, h2⟩ := (mem_startupIdxs b k i).mp hi
  exact absurd (hb _ (List.get?_mem h2)) (by simp)

theorem shutdownIdxs_all_false (b : List Bool) (hb : ∀ x ∈ b, x = false) :
    ∀ k, shutdownIdxs b k = [] := by
  intro k
  rw [List.eq_nil_iff_forall_not_mem]
  intro j hj
  obtain ⟨m, -, h1, -⟩ := (mem_shutdownIdxs b k j).mp hj
  exact absurd (hb _ (List.get?_mem h1)) (by simp)

/-- padding to a length the column already reaches changes nothing. -/
theorem padTo_eq_self (l : List (Option ℤ)) (n : ℕ) (h : n ≤ l.length) : padTo n l = l := by
  unfold padTo
  rw [Nat.sub_eq_zero_of_le h]
  simp

/-- the length of a padded column. -/
theorem padTo_length (n : ℕ) (S : List (Option ℤ)) (h : S.length ≤ n) :
    (padTo n S).length = n := by
  unfold padTo
  rw [List.length_append, List.length_replicate]
  omega

/-- a known entry of a padded column is a known entry of the column itself. -/
theorem get?_padTo (n : ℕ) (S : List (Option ℤ)) (m : ℕ) (a : ℤ)
    (h : (padTo n S).get? m = some (some a)) : S.get? m = some (some a) := by
  unfold padTo at h
  by_cases hm : m < S.length
  · rwa [List.get?_append hm] at h
  · rw [List.get?_append_right (le_of_not_lt hm)] at h
    cases hr : (List.replicate (n - S.length) (none : Option ℤ)).get? (m - S.length) <;>
      rw [hr] at h
    · exact absurd h (by simp)
    · rw [List.eq_of_mem_replicate (List.get?_mem hr)] at h
      exact absurd h (by simp)

/-- padding with missing values does not change the known entries. -/
theorem filterMap_id_padTo (n : ℕ) (S : List (Option ℤ)) :
    (padTo n S).filterMap id = S.filterMap id := by
  unfold padTo
  rw [List.filterMap_append]
  have hrep : (List.replicate (n - S.length) (none : Option ℤ)).filterMap id = [] := by
    induction n - S.length with
    | zero => rfl
    | succ k ih => rw [List.replicate_succ, List.filterMap_cons]; exact ih
  rw [hrep, List.append_nil]

/-- destructor for a successful run of `_find_uptime`: in every success case
the events are the row-wise zip of the two columns, each padded with missing
values to the common frame length (the padding is trivial when the column
lengths already agree). -/
theorem find_uptime_eq_some (ts : List ℤ) (vals : List (Option ℚ)) (dt : Bool)
    (evs : List UnitEvent) (h : find_uptime ts vals dt = some evs) :
    vals ≠ [] ∧
      evs = ((padTo (max (startupColOf ts vals dt).length
            (shutdownColOf ts vals dt).length) (startupColOf ts vals dt)).zip
          (padTo (max (startupColOf ts vals dt).length
            (shutdownColOf ts vals dt).length) (shutdownColOf ts vals dt))).map
        fun p => ⟨p.1, p.2⟩ := by
  unfold find_uptime at h
  split at h
  · exact absurd h (by simp)
  · split at h
    · next hne hlen =>
      injection h with h
      refine ⟨hne, ?_⟩
      have hmax : max (startupColOf ts vals dt).length (shutdownColOf ts vals dt).length
          = (startupColOf ts vals dt).length := by rw [hlen, max_self]
      rw [hmax, padTo_eq_self _ _ (le_refl _), padTo_eq_self _ _ (le_of_eq hlen)]
      exact h.symm
    · split at h
      · next hne _ _ =>
        injection h with h
        exact ⟨hne, h.symm⟩
      · exact absurd h (by simp)

theorem getD_lt_getD (ts : List ℤ) (hmono : ts.Pairwise (· < ·)) {i j : ℕ}
    (hij : i < j) (hj : j < ts.length) : ts.getD i 0 < ts.getD j 0 := by
  have hi : i < ts.length := lt_trans hij hj
  rw [List.getD_eq_getElem?_getD, List.getD_eq_getElem?_getD,
    List.getElem?_eq_getElem hi, List.getElem?_eq_getElem hj]
  exact List.pairwise_iff_getElem.mp hmono i j hi hj hij

theorem getD_le_getD (ts : List ℤ) (hmono : ts.Pairwise (· < ·)) {i j : ℕ}
    (hij : i ≤ j) (hj : j < ts.length) : ts.getD i 0 ≤ ts.getD j 0 := by
  rcases eq_or_lt_of_le hij with rfl | h
  · exact le_refl _
  · exact (getD_lt_getD ts hmono h hj).le

theorem get?_map_some (S : List ℤ) (m : ℕ) (a : ℤ)
    (h : (S.map some).get? m = some (some a)) : S.get? m = some a := by
  rw [List.get?_map] at h
  cases hs : S.get? m <;> rw [hs] at h
  · exact absurd h (by simp)
  · simpa using h

theorem get?_pad_right (S : List (Option ℤ)) (m : ℕ) (a : ℤ)
    (h : (S ++ [none]).get? m = some (some a)) : S.get? m = some (some a) := by
  by_cases hm : m < S.length
  · rwa [List.get?_append hm] at h
  · rw [List.get?_append_right (le_of_not_lt hm)] at h
    rcases hk : m - S.length with _ | k <;> rw [hk] at h <;> simp at h

theorem startupsOf_get? (ts : List ℤ) (vals : List (Option ℚ)) (m : ℕ) (a : ℤ)
    (h : (startupsOf ts vals).get? m = some a) :
    ∃ i, (startupIdxs (vals.map binarize) 0).get? m = some i ∧ a = ts.getD i 0 := by
  unfold startupsOf at h
  rw [List.get?_map] at h
  cases hi : (startupIdxs (vals.map binarize) 0).get? m <;> rw [hi] at h
  · exact absurd h (by simp)
  · exact ⟨_, rfl, by simpa using h.symm⟩

theorem shutdownsOf_get? (ts : List ℤ) (vals : List (Option ℚ)) (m : ℕ) (c : ℤ)
    (h : (shutdownsOf ts vals).get? m = some c) :
    ∃ j, (shutdownIdxs (vals.map binarize) 0).get? m = some j ∧ c = ts.getD j 0 := by
  unfold shutdownsOf at h
  rw [List.get?_map] at h
  cases hj : (shutdownIdxs (vals.map binarize) 0).get? m <;> rw [hj] at h
  · exact absurd h (by simp)
  · exact ⟨_, rfl, by simpa using h.symm⟩

/-- C7 (amended): for every load series (values non-negative or missing) with
strictly increasing timestamps whose FIRST value is non-missing, every event
returned by `_find_uptime` with both endpoints known satisfies end ≥ start:
`startup ≥ shutdown` for a downtime event and `shutdown ≥ startup` for an
uptime event. -/
theorem C7_end_ge_start (ts : List ℤ) (vals : List (Option ℚ)) (dt : Bool)
    (evs : List UnitEvent)
    (hlen : ts.length = vals.length)
    (hmono : ts.Pairwise (· < ·))
    (hload : ∀ v ∈ vals, 0 ≤ v.getD 0)
    (h0 : vals.getD 0 none ≠ none)
    (h : find_uptime ts vals dt = some evs) :
    ∀ ev ∈ evs, ∀ a c : ℤ, ev.startup = some a → ev.shutdown = some c →
      (dt = true → c ≤ a) ∧ (dt = false → a ≤ c) := by
  obtain ⟨hne, rfl⟩ := find_uptime_eq_some _ _ _ _ h
  intro ev hev a c hsa hsc
  obtain ⟨p, hp, rfl⟩ := List.mem_map.mp hev
  have hpa : p.1 = some a := hsa
  have hpc : p.2 = some c := hsc
  obtain ⟨m, hm⟩ := List.get?_of_mem hp
  rw [List.get?_zip_eq_some] at hm
  obtain ⟨hm1, hm2⟩ := hm
  rw [hpa] at hm1
  rw [hpc] at hm2
  replace hm1 := get?_padTo _ _ _ _ hm1
  replace hm2 := get?_padTo _ _ _ _ hm2
  obtain ⟨v0, vrest, rfl⟩ : ∃ v0 vrest, vals = v0 :: vrest := by
    cases vals with
    | nil => exact absurd rfl hne
    | cons v0 vrest => exact ⟨v0, vrest, rfl⟩
  obtain ⟨x, rfl⟩ : ∃ x : ℚ, v0 = some x := by
    cases v0 with
    | none => exact absurd rfl h0
    | some x => exact ⟨x, rfl⟩
  have hx : 0 ≤ x := by simpa using hload _ (List.mem_cons_self _ _)
  have hblen : ((some x :: vrest).map binarize).length = ts.length := by
    simp [hlen]
  have hub := startupIdxs_ub ((some x :: vrest).map binarize)
  have hlb := shutdownIdxs_ub ((some x :: vrest).map binarize)
  by_cases hxz : x = 0
  · -- the series starts with a zero sample
    subst hxz
    have hswz : startsWithZero (some (0 : ℚ) :: vrest) = true := by
      simp [startsWithZero, isZeroVal]
    have hbhead : ((some (0 : ℚ) :: vrest).map binarize).head? = some false := by
      simp [binarize]
    cases dt with
    | false =>
      rw [startupColOf, if_neg (by simp), if_pos (by simp [hswz])] at hm1
      have hS := startupsOf_get? _ _ _ _ (get?_map_some _ _ _ hm1)
      obtain ⟨i, hi, rfl⟩ := hS
      have hD : (shutdownsOf ts (some 0 :: vrest)).get? m = some c := by
        rw [shutdownColOf, if_neg (by simp)] at hm2
        split at hm2
        · exact get?_map_some _ _ _ hm2
        · exact get?_map_some _ _ _ (get?_pad_right _ _ _ hm2)
      obtain ⟨j, hj, rfl⟩ := shutdownsOf_get? _ _ _ _ hD
      have hij : i < j := (interUp _ 0).1 hbhead m i j hi hj
      have hjlt : j < ts.length := by
        have := hlb 0 j (List.get?_mem hj)
        omega
      refine ⟨fun hdt => Bool.noConfusion hdt, fun _ => ?_⟩
      exact (getD_lt_getD ts hmono hij hjlt).le
    | true =>
      rw [shutdownColOf, if_pos rfl, if_pos hswz] at hm2
      obtain ⟨m', rfl⟩ : ∃ m', m = m' + 1 := by
        cases m with
        | zero => rw [List.get?_cons_zero] at hm2; exact absurd hm2 (by simp)
        | succ m' => exact ⟨m', rfl⟩
      rw [List.get?_cons_succ] at hm2
      obtain ⟨j, hj, rfl⟩ := shutdownsOf_get? _ _ _ _ (get?_map_some _ _ _ hm2)
      have hS : (startupsOf ts (some 0 :: vrest)).get? (m' + 1) = some a := by
        rw [startupColOf, if_pos rfl] at hm1
        split at hm1
        · exact get?_map_some _ _ _ (get?_pad_right _ _ _ hm1)
        · exact get?_map_some _ _ _ hm1
      obtain ⟨i, hi, rfl⟩ := startupsOf_get? _ _ _ _ hS
      have hji : j ≤ i := (interDown _ 0).1 hbhead m' i j hj hi
      have hilt : i < ts.length := by
        have := hub 0 i (List.get?_mem hi)
        omega
      refine ⟨fun _ => ?_, fun hdt => Bool.noConfusion hdt⟩
      exact getD_le_getD ts hmono hji hilt
  · -- the series starts with a positive sample
    have hxpos : 0 < x := lt_of_le_of_ne hx (Ne.symm hxz)
    have hswz : startsWithZero (some x :: vrest) = false := by
      simp [startsWithZero, isZeroVal, hxz]
    have hbhead : ((some x :: vrest).map binarize).head? = some true := by
      simp [binarize, hxpos]
    cases dt with
    | false =>
      rw [startupColOf, if_neg (by simp), if_neg (by simp [hswz])] at hm1
      obtain ⟨m', rfl⟩ : ∃ m', m = m' + 1 := by
        cases m with
        | zero => rw [List.get?_cons_zero] at hm1; exact absurd hm1 (by simp)
        | succ m' => exact ⟨m', rfl⟩
      rw [List.get?_cons_succ] at hm1
      obtain ⟨i, hi, rfl⟩ := startupsOf_get? _ _ _ _ (get?_map_some _ _ _ hm1)
      have hD : (shutdownsOf ts (some x :: vrest)).get? (m' + 1) = some c := by
        rw [shutdownColOf, if_neg (by simp)] at hm2
        split at hm2
        · exact get?_map_some _ _ _ hm2
        · exact get?_map_some _ _ _ (get?_pad_right _ _ _ hm2)
      obtain ⟨j, hj, rfl⟩ := shutdownsOf_get? _ _ _ _ hD
      have hij : i < j := (interUp _ 0).2 hbhead m' i j hi hj
      have hjlt : j < ts.length := by
        have := hlb 0 j (List.get?_mem hj)
        omega
      refine ⟨fun hdt => Bool.noConfusion hdt, fun _ => ?_⟩
      exact (getD_lt_getD ts hmono hij hjlt).le
    | true =>
      rw [shutdownColOf, if_pos rfl, if_neg (by simp [hswz])] at hm2
      obtain ⟨j, hj, rfl⟩ := shutdownsOf_get? _ _ _ _ (get?_map_some _ _ _ hm2)
      have hS : (startupsOf ts (some x :: vrest)).get? m = some a := by
        rw [startupColOf, if_pos rfl] at hm1
        split at hm1
        · exact get?_map_some _ _ _ (get?_pad_right _ _ _ hm1)
        · exact get?_map_some _ _ _ hm1
      obtain ⟨i, hi, rfl⟩ := startupsOf_get? _ _ _ _ hS
      have hji : j ≤ i := (interDown _ 0).2 hbhead m i j hj hi
      have hilt : i < ts.length := by
        have := hub 0 i (List.get?_mem hi)
        omega
      refine ⟨fun _ => ?_, fun hdt => Bool.noConfusion hdt⟩
      exact getD_le_getD ts hmono hji hilt

/-- C7 counterexample: the data model allows missing load values, and on the
series `[NaN, 1, 0, 0, 1, NaN]` (strictly increasing hourly timestamps) the
first downtime event returned by `_find_uptime` has shutdown (event start) at
timestamp 2 but startup (event end) at timestamp 0: end < start, because a
missing boundary value is binarized as zero but treated as non-zero by the
boundary-state checks, misaligning the event columns. -/
theorem C7_counterexample :
    ([0, 1, 2, 3, 4, 5] : List ℤ).Pairwise (· < ·) ∧
    find_uptime [0, 1, 2, 3, 4, 5] [none, some 1, some 0, some 0, some 1, none] true =
      some [⟨some 0, some 2⟩, ⟨some 3, some 5⟩] ∧
    ¬ ((2 : ℤ) ≤ 0) := by decide

/-- C7 witness: on the test series `[2, 2, 0, 0, 0, 2]` the single downtime
event has startup 4 ≥ shutdown 2. -/
theorem C7_witness :
    (find_uptime [0, 1, 2, 3, 4, 5] [some 2, some 2, some 0, some 0, some 0, some 2] true =
      some [⟨some 4, some 2⟩]) ∧ (2 : ℤ) ≤ 4 :=
  ⟨by decide,
    ((C7_end_ge_start [0, 1, 2, 3, 4, 5]
        [some 2, some 2, some 0, some 0, some 0, some 2] true [⟨some 4, some 2⟩]
        (by decide) (by decide) (by decide) (by decide) (by decide))
      ⟨some 4, some 2⟩ (by decide) 4 2 rfl rfl).1 rfl⟩

theorem filterMap_id_map_some (S : List ℤ) : (S.map some).filterMap id = S := by
  induction S with
  | nil => rfl
  | cons a l ih => simp [ih]

theorem startupColOf_filterMap (ts : List ℤ) (vals : List (Option ℚ)) (dt : Bool) :
    (startupColOf ts vals dt).filterMap id = startupsOf ts vals := by
  unfold startupColOf
  split_ifs <;> simp [filterMap_id_map_some, List.filterMap_cons, List.filterMap_append]

theorem shutdownColOf_filterMap (ts : List ℤ) (vals : List (Option ℚ)) (dt : Bool) :
    (shutdownColOf ts vals dt).filterMap id = shutdownsOf ts vals := by
  unfold shutdownColOf
  split_ifs <;> simp [filterMap_id_map_some, List.filterMap_cons, List.filterMap_append]

/-- C1 (amended): `_find_uptime` places each known startup timestamp at the
LAST ZERO sample immediately preceding the zero→non-zero transition (the zero
side, one sample before the diff = +1 location), and each known shutdown
timestamp at the first zero sample of the zero block (the diff = -1 location,
zero side).  The known entries of the startup (resp. shutdown) column are
exactly the timestamps of the positions with `b i = false ∧ b (i+1) = true`
(resp. `b (j-1) = true ∧ b j = false`). -/
theorem C1_startup_placement (ts : List ℤ) (vals : List (Option ℚ)) (dt : Bool)
    (evs : List UnitEvent) (h : find_uptime ts vals dt = some evs) :
    ((evs.map UnitEvent.startup).filterMap id = startupsOf ts vals) ∧
    ((evs.map UnitEvent.shutdown).filterMap id = shutdownsOf ts vals) ∧
    (∀ i, i ∈ startupIdxs (vals.map binarize) 0 ↔
      (vals.map binarize).get? i = some false ∧
      (vals.map binarize).get? (i + 1) = some true) ∧
    (∀ j, j ∈ shutdownIdxs (vals.map binarize) 0 ↔
      1 ≤ j ∧ (vals.map binarize).get? (j - 1) = some true ∧
      (vals.map binarize).get? j = some false) := by
  obtain ⟨hne, rfl⟩ := find_uptime_eq_some _ _ _ _ h
  have hpl1 := padTo_length (max (startupColOf ts vals dt).length
    (shutdownColOf ts vals dt).length) (startupColOf ts vals dt) (le_max_left _ _)
  have hpl2 := padTo_length (max (startupColOf ts vals dt).length
    (shutdownColOf ts vals dt).length) (shutdownColOf ts vals dt) (le_max_right _ _)
  refine ⟨?_, ?_, ?_, ?_⟩
  · rw [List.map_map]
    have hc : (UnitEvent.startup ∘ fun p : Option ℤ × Option ℤ =>
        (⟨p.1, p.2⟩ : UnitEvent)) = Prod.fst := rfl
    rw [hc, List.map_fst_zip _ _ (by rw [hpl1, hpl2]), filterMap_id_padTo]
    exact startupColOf_filterMap ts vals dt
  · rw [List.map_map]
    have hc : (UnitEvent.shutdown ∘ fun p : Option ℤ × Option ℤ =>
        (⟨p.1, p.2⟩ : UnitEvent)) = Prod.snd := rfl
    rw [hc, List.map_snd_zip _ _ (by rw [hpl1, hpl2]), filterMap_id_padTo]
    exact shutdownColOf_filterMap ts vals dt
  · intro i
    rw [mem_startupIdxs]
    constructor
    · rintro ⟨m, rfl, h1, h2⟩
      simpa using And.intro h1 h2
    · rintro ⟨h1, h2⟩
      exact ⟨i, by omega, h1, h2⟩
  · intro j
    rw [mem_shutdownIdxs]
    constructor
    · rintro ⟨m, rfl, h1, h2⟩
      refine ⟨by omega, ?_, by simpa using h2⟩
      simpa using h1
    · rintro ⟨h0, h1, h2⟩
      refine ⟨j - 1, by omega, h1, ?_⟩
      have : j - 1 + 1 = j := by omega
      rwa [this]

/-- C1 counterexample: on the test series `[2, 2, 0, 0, 0, 2]` the single
zero→non-zero transition lies between samples 4 and 5.  The claim places the
startup timestamp at sample 5 (the non-zero side, the diff = +1 location), but
`_find_uptime` places it at sample 4 (the last zero, one before the diff = +1
location), as its own unit test asserts. -/
theorem C1_counterexample :
    (find_uptime [0, 1, 2, 3, 4, 5] [some 2, some 2, some 0, some 0, some 0, some 2] true =
      some [⟨some 4, some 2⟩]) ∧
    specClaimStartupIdxs
      ([some 2, some 2, some 0, some 0, some 0, some 2].map binarize) 0 = [5] ∧
    startupIdxs ([some 2, some 2, some 0, some 0, some 0, some 2].map binarize) 0 = [4] ∧
    (4 : ℕ) ≠ 5 := by decide

/-- C1 witness: the amended placement evaluated on the test series. -/
theorem C1_witness :
    (find_uptime [0, 1, 2, 3, 4, 5] [some 2, some 2, some 0, some 0, some 0, some 2] true =
      some [⟨some 4, some 2⟩]) ∧
    (([⟨some 4, some 2⟩] : List UnitEvent).map UnitEvent.startup).filterMap id =
      startupsOf [0, 1, 2, 3, 4, 5] [some 2, some 2, some 0, some 0, some 0, some 2] :=
  ⟨by decide,
    (C1_startup_placement [0, 1, 2, 3, 4, 5]
      [some 2, some 2, some 0, some 0, some 0, some 2] true [⟨some 4, some 2⟩] (by decide)).1⟩

/-- C5 (amended): an input series whose boundary values are missing is NOT
rejected by `_find_uptime`: the missing value is silently coerced — treated as
non-zero by the boundary-state checks (`NaN == 0` is `False`) and as zero by
the binarization (`NaN > 0` is `False`).  In particular a non-empty all-missing
series returns one uptime event with both endpoints unknown instead of
failing. -/
theorem C5_missing_boundary_not_rejected (ts : List ℤ) (vals : List (Option ℚ))
    (hne : vals ≠ []) (hall : ∀ v ∈ vals, v = none) :
    find_uptime ts vals false = some [⟨none, none⟩] := by
  have hb : ∀ x ∈ vals.map binarize, x = false := by
    intro x hx
    obtain ⟨v, hv, rfl⟩ := List.mem_map.mp hx
    rw [hall v hv]
    rfl
  have hsu : startupIdxs (vals.map binarize) 0 = [] := startupIdxs_all_false _ hb 0
  have hsd : shutdownIdxs (vals.map binarize) 0 = [] := shutdownIdxs_all_false _ hb 0
  have hv0 : vals.getD 0 none = none := by
    cases vals with
    | nil => rfl
    | cons v vr => exact hall v (List.mem_cons_self _ _)
  have hvlast : vals.getD (vals.length - 1) none = none := by
    have hlt : vals.length - 1 < vals.length := by
      cases vals with
      | nil => exact absurd rfl hne
      | cons v vr => simp
    rw [List.getD_eq_getElem?_getD, List.getElem?_eq_getElem hlt]
    exact hall _ (List.getElem_mem hlt)
  have hswz : startsWithZero vals = false := by
    unfold startsWithZero
    rw [hv0]
    rfl
  have hewz : endsWithZero vals = false := by
    unfold endsWithZero
    rw [hvlast]
    rfl
  unfold find_uptime startupColOf shutdownColOf startupsOf shutdownsOf
  rw [hsu, hsd, hswz, hewz]
  simp [hne]

/-- C5 counterexample: the series `[NaN, NaN]` has a missing first (and last)
value, yet `_find_uptime` does not fail: it returns an event table with one
fully-open uptime event. -/
theorem C5_counterexample :
    ([none, none] : List (Option ℚ)).getD 0 none = none ∧
    find_uptime [0, 1] [none, none] false = some [⟨none, none⟩] := by decide

/-- C5 witness: the amended behaviour evaluated on the all-missing series. -/
theorem C5_witness :
    find_uptime [0, 1] [none, none] false = some [⟨none, none⟩] :=
  C5_missing_boundary_not_rejected [0, 1] [none, none] (by decide) (by decide)

/-! ## Lemmas about the distance computation -/

theorem forall₂_get? {α β : Type} {R : α → β → Prop} :
    ∀ {l₁ : List α} {l₂ : List β}, List.Forall₂ R l₁ l₂ →
      ∀ (m : ℕ) (a : α) (b : β), l₁.get? m = some a → l₂.get? m = some b → R a b := by
  intro l₁ l₂ h
  induction h with
  | nil => intro m a b h1 _; simp at h1
  | cons hc _ ih =>
    intro m a b h1 h2
    cases m with
    | zero =>
      rw [List.get?_cons_zero] at h1 h2
      injection h1 with h1
      injection h2 with h2
      rw [← h1, ← h2]
      exact hc
    | succ m =>
      rw [List.get?_cons_succ] at h1 h2
      exact ih m a b h1 h2

theorem marks_forall₂ (f : ℤ → Option ℤ → Option ℤ)
    (hf : ∀ t d, f t d = none ∨ f t d = some t) :
    ∀ (ts : List ℤ) (ds : List (Option ℤ)), ds.length = ts.length →
      List.Forall₂ (fun m t => m = none ∨ m = some t) (List.zipWith f ts ds) ts := by
  intro ts
  induction ts with
  | nil => intro ds _; simp
  | cons t tr ih =>
    intro ds h
    cases ds with
    | nil => simp at h
    | cons d dr =>
      rw [List.zipWith_cons_cons]
      exact List.Forall₂.cons (hf t d) (ih dr (by simpa using h))

theorem binaryDiffs_length (loads : List (Option ℚ)) :
    (binaryDiffs loads).length = loads.length := by
  cases loads with
  | nil => rfl
  | cons a l => simp [binaryDiffs]

/-- after a forward fill, every defined entry comes from a mark at or before
the current row, hence is at most the current timestamp. -/
theorem ffill_bound :
    ∀ (ms : List (Option ℤ)) (ts : List ℤ) (acc : Option ℤ),
      List.Forall₂ (fun m t => m = none ∨ m = some t) ms ts →
      ts.Pairwise (· ≤ ·) →
      (∀ a, acc = some a → ∀ t ∈ ts, a ≤ t) →
      List.Forall₂ (fun (c : Option ℤ) (t : ℤ) => ∀ v, c = some v → v ≤ t)
        (ffill acc ms) ts := by
  intro ms
  induction ms with
  | nil =>
    intro ts acc hf _ _
    cases hf
    exact List.Forall₂.nil
  | cons m mr ih =>
    intro ts acc hf hp hacc
    cases hf with
    | cons hm hrest =>
      rename_i t tr
      obtain ⟨hpt, hptail⟩ := List.pairwise_cons.mp hp
      cases m with
      | some v =>
        have hv : v = t := by
          rcases hm with h | h
          · exact absurd h (by simp)
          · injection h
        subst hv
        simp only [ffill]
        refine List.Forall₂.cons (fun w hw => ?_) (ih tr (some v) hrest hptail ?_)
        · injection hw with hw
          omega
        · intro a ha t' ht'
          injection ha with ha
          subst ha
          exact hpt t' ht'
      | none =>
        simp only [ffill]
        refine List.Forall₂.cons (fun w hw => ?_) (ih tr acc hrest hptail ?_)
        · exact hacc w hw t (List.mem_cons_self _ _)
        · intro a ha t' ht'
          exact hacc a ha t' (List.mem_cons_of_mem _ ht')

/-- after a backward fill, every defined entry comes from a mark at or after
the current row, hence is at least the current timestamp; the carried-out
value, when defined, is an element of the timestamps. -/
theorem bfill_bound :
    ∀ (ms : List (Option ℤ)) (ts : List ℤ),
      List.Forall₂ (fun m t => m = none ∨ m = some t) ms ts →
      ts.Pairwise (· ≤ ·) →
      List.Forall₂ (fun (c : Option ℤ) (t : ℤ) => ∀ v, c = some v → t ≤ v)
        (bfill ms) ts ∧
      (∀ a, (bfillAux ms).2 = some a → a ∈ ts) := by
  intro ms
  induction ms with
  | nil =>
    intro ts hf _
    cases hf
    exact ⟨List.Forall₂.nil, by intro a ha; simp [bfillAux] at ha⟩
  | cons m mr ih =>
    intro ts hf hp
    cases hf with
    | cons hm hrest =>
      rename_i t tr
      obtain ⟨hpt, hptail⟩ := List.pairwise_cons.mp hp
      obtain ⟨ihf, ihc⟩ := ih tr hrest hptail
      cases m with
      | some v =>
        have hv : v = t := by
          rcases hm with h | h
          · exact absurd h (by simp)
          · injection h
        subst hv
        constructor
        · show List.Forall₂ _ (some v :: (bfillAux mr).1) (v :: tr)
          refine List.Forall₂.cons (fun w hw => ?_) ihf
          injection hw with hw
          omega
        · intro a ha
          have : some v = some a := ha
          injection this with this
          rw [← this]
          exact List.mem_cons_self _ _
      | none =>
        constructor
        · show List.Forall₂ _ ((bfillAux mr).2 :: (bfillAux mr).1) (t :: tr)
          refine List.Forall₂.cons (fun w hw => ?_) ihf
          exact hpt w (ihc w hw)
        · intro a ha
          have : (bfillAux mr).2 = some a := ha
          exact List.mem_cons_of_mem _ (ihc a this)

theorem forall₂_map_getD_le (filled : List (Option ℤ)) (ts : List ℤ) (d : ℤ)
    (h : List.Forall₂ (fun c t => ∀ v, c = some v → v ≤ t) filled ts)
    (hd : ∀ t ∈ ts, d ≤ t) :
    List.Forall₂ (fun (s t : ℤ) => s ≤ t) (filled.map (fun o => o.getD d)) ts := by
  induction h with
  | nil => exact List.Forall₂.nil
  | cons hc hrest ih =>
    rename_i c t cr tr
    refine List.Forall₂.cons ?_ (ih fun t' ht' => hd t' (List.mem_cons_of_mem _ ht'))
    cases c with
    | some v => exact hc v rfl
    | none => exact hd t (List.mem_cons_self _ _)

theorem forall₂_map_getD_ge (filled : List (Option ℤ)) (ts : List ℤ) (d : ℤ)
    (h : List.Forall₂ (fun c t => ∀ v, c = some v → t ≤ v) filled ts)
    (hd : ∀ t ∈ ts, t ≤ d) :
    List.Forall₂ (fun (s t : ℤ) => t ≤ s) (filled.map (fun o => o.getD d)) ts := by
  induction h with
  | nil => exact List.Forall₂.nil
  | cons hc hrest ih =>
    rename_i c t cr tr
    refine List.Forall₂.cons ?_ (ih fun t' ht' => hd t' (List.mem_cons_of_mem _ ht'))
    cases c with
    | some v => exact hc v rfl
    | none => exact hd t (List.mem_cons_self _ _)

theorem sorted_head_le (t : ℤ) (tr : List ℤ) (hp : (t :: tr).Pairwise (· < ·)) :
    ∀ u ∈ t :: tr, t ≤ u := by
  intro u hu
  rcases List.mem_cons.mp hu with rfl | hu
  · exact le_refl u
  · exact ((List.pairwise_cons.mp hp).1 u hu).le

theorem getLastD_ge :
    ∀ (l : List ℤ) (d : ℤ), l.Pairwise (· < ·) → (∀ x ∈ l, d ≤ x) →
      d ≤ l.getLastD d ∧ ∀ u ∈ l, u ≤ l.getLastD d := by
  intro l
  induction l with
  | nil => intro d _ _; exact ⟨le_refl d, by simp⟩
  | cons t tr ih =>
    intro d hp hbound
    obtain ⟨hpt, hptail⟩ := List.pairwise_cons.mp hp
    have hrec := ih t hptail fun x hx => (hpt x hx).le
    have hgl : (t :: tr).getLastD d = tr.getLastD t := by cases tr <;> rfl
    constructor
    · rw [hgl]
      exact le_trans (hbound t (List.mem_cons_self _ _)) hrec.1
    · intro u hu
      rw [hgl]
      rcases List.mem_cons.mp hu with rfl | hu
      · exact hrec.1
      · exact hrec.2 u hu

/-- the filled startup column lies at or before each row's own timestamp. -/
theorem sFilledOf_le (rows : List CemsRow)
    (hmono : (rows.map (·.ts)).Pairwise (· < ·)) :
    List.Forall₂ (fun (s t : ℤ) => s ≤ t) (sFilledOf rows) (rows.map (·.ts)) := by
  cases rows with
  | nil => exact List.Forall₂.nil
  | cons r0 rr =>
    unfold sFilledOf
    refine forall₂_map_getD_le _ _ _ ?_ ?_
    · refine ffill_bound _ _ none ?_ (hmono.imp fun h => h.le) (by simp)
      refine marks_forall₂ _ ?_ _ _ ?_
      · intro t dv
        unfold startupMarks at *
        split
        · exact Or.inr rfl
        · exact Or.inl rfl
      · rw [binaryDiffs_length]
        simp
    · intro t ht
      have := sorted_head_le _ _ hmono t ht
      simp only [List.map_cons] at this ⊢
      omega

/-- the filled shutdown column lies at or after each row's own timestamp. -/
theorem shFilledOf_ge (rows : List CemsRow)
    (hmono : (rows.map (·.ts)).Pairwise (· < ·)) :
    List.Forall₂ (fun (s t : ℤ) => t ≤ s) (shFilledOf rows) (rows.map (·.ts)) := by
  cases rows with
  | nil => exact List.Forall₂.nil
  | cons r0 rr =>
    unfold shFilledOf
    refine forall₂_map_getD_ge _ _ _ ?_ ?_
    · refine (bfill_bound _ _ ?_ (hmono.imp fun h => h.le)).1
      refine marks_forall₂ _ ?_ _ _ ?_
      · intro t dv
        unfold shutdownMarks at *
        split
        · exact Or.inr rfl
        · exact Or.inl rfl
      · rw [binaryDiffs_length]
        simp
    · intro t ht
      have hgl : (r0.ts :: rr.map (·.ts)).getLastD 0 =
          (rr.map (·.ts)).getLastD r0.ts := by
        cases rr <;> rfl
      have hb := getLastD_ge (rr.map (·.ts)) r0.ts
        (List.pairwise_cons.mp hmono).2
        (fun x hx => ((List.pairwise_cons.mp hmono).1 x hx).le)
      simp only [List.map_cons] at ht ⊢
      rw [hgl]
      rcases List.mem_cons.mp ht with rfl | ht
      · omega
      · have := hb.2 t ht
        omega

theorem calcDistanceUnit_nonneg (rows : List CemsRow)
    (hmono : (rows.map (·.ts)).Pairwise (· < ·)) :
    ∀ r ∈ calcDistanceUnit rows,
      0 ≤ r.hoursFromStartup ∧ 0 ≤ r.hoursToShutdown ∧ 0 ≤ r.hoursDistance := by
  intro r hr
  unfold calcDistanceUnit at hr
  obtain ⟨p, hp, rfl⟩ := List.mem_map.mp hr
  obtain ⟨m, hm⟩ := List.get?_of_mem hp
  rw [List.get?_zip_eq_some] at hm
  obtain ⟨hm1, hm23⟩ := hm
  rw [List.get?_zip_eq_some] at hm23
  obtain ⟨hm2, hm3⟩ := hm23
  have hts : (rows.map (·.ts)).get? m = some p.1.ts := by
    rw [List.get?_map, hm1]
    rfl
  have h1 := forall₂_get? (sFilledOf_le rows hmono) m _ _ hm2 hts
  have h2 := forall₂_get? (shFilledOf_ge rows hmono) m _ _ hm3 hts
  refine ⟨by simp only; omega, by simp only; omega, ?_⟩
  simp only
  rw [le_min_iff]
  omega

/-- C9: on a frame indexed and sorted by (unit, timestamp) with no missing
boundary load values, `calc_distance_from_downtime` yields non-negative
`hours_from_startup`, `hours_to_shutdown` and `hours_distance` on every row
(the boundary fallbacks lie outside the observed window on the correct side),
so the disabled radius `-1` of `gas_turbine` / `internal_combustion` can never
exclude a sample. -/
theorem C9_distances_nonneg (units : List (ℤ × List CemsRow))
    (hsorted : ∀ u ∈ units, (u.2.map (·.ts)).Pairwise (· < ·))
    (hbnd : ∀ u ∈ units, (u.2.head?.map (·.load) ≠ some none) ∧
      (u.2.getLast?.map (·.load) ≠ some none)) :
    ∀ u ∈ calcDistanceFrame units, ∀ r ∈ u.2,
      0 ≤ r.hoursFromStartup ∧ 0 ≤ r.hoursToShutdown ∧ 0 ≤ r.hoursDistance ∧
      exclude_ramp TechType.gas_turbine r = false ∧
      exclude_ramp TechType.internal_combustion r = false := by
  intro u hu r hr
  obtain ⟨w, hw, rfl⟩ := List.mem_map.mp hu
  obtain ⟨h1, h2, h3⟩ := calcDistanceUnit_nonneg w.2 (hsorted w hw) r hr
  refine ⟨h1, h2, h3, ?_, ?_⟩ <;>
    · simp only [exclude_ramp, EXCLUSION_SIZE_HOURS]
      rw [decide_eq_false_iff_not]
      omega

/-- C2: for every sample of the frame produced by `calc_distance_from_downtime`
(sorted per unit), the exclusion flag of `process_subset` is set iff the
sample's `hours_distance` is at most the technology-specific radius — 5 hours
for `steam_turbine`, 7 for `combined_cycle` — and samples of `gas_turbine` or
`internal_combustion` components are never excluded. -/
theorem C2_exclusion_iff (units : List (ℤ × List CemsRow))
    (hsorted : ∀ u ∈ units, (u.2.map (·.ts)).Pairwise (· < ·)) :
    ∀ u ∈ calcDistanceFrame units, ∀ r ∈ u.2,
      (exclude_ramp TechType.steam_turbine r = true ↔ r.hoursDistance ≤ 5) ∧
      (exclude_ramp TechType.combined_cycle r = true ↔ r.hoursDistance ≤ 7) ∧
      exclude_ramp TechType.gas_turbine r = false ∧
      exclude_ramp TechType.internal_combustion r = false := by
  intro u hu r hr
  obtain ⟨w, hw, rfl⟩ := List.mem_map.mp hu
  obtain ⟨h1, h2, h3⟩ := calcDistanceUnit_nonneg w.2 (hsorted w hw) r hr
  refine ⟨?_, ?_, ?_, ?_⟩
  · simp [exclude_ramp, EXCLUSION_SIZE_HOURS]
  · simp [exclude_ramp, EXCLUSION_SIZE_HOURS]
  all_goals
    simp only [exclude_ramp, EXCLUSION_SIZE_HOURS]
    rw [decide_eq_false_iff_not]
    omega

/-- C2 witness: on a small unit, the middle sample sits at distance 0 from its
own startup and is excluded for `steam_turbine`, while the same sample is not
excluded for `gas_turbine`. -/
theorem C2_witness :
    (calcDistanceFrame [(1, [⟨0, some 0⟩, ⟨1, some 2⟩, ⟨2, some 0⟩])] =
      [(1, [⟨0, some 0, 24, 2, 2⟩, ⟨1, some 2, 0, 1, 0⟩, ⟨2, some 0, 1, 0, 0⟩])]) ∧
    ((exclude_ramp TechType.steam_turbine ⟨1, some 2, 0, 1, 0⟩ = true ↔
      (⟨1, some 2, 0, 1, 0⟩ : DistRow).hoursDistance ≤ 5) ∧
     (exclude_ramp TechType.combined_cycle ⟨1, some 2, 0, 1, 0⟩ = true ↔
      (⟨1, some 2, 0, 1, 0⟩ : DistRow).hoursDistance ≤ 7) ∧
     exclude_ramp TechType.gas_turbine ⟨1, some 2, 0, 1, 0⟩ = false ∧
     exclude_ramp TechType.internal_combustion ⟨1, some 2, 0, 1, 0⟩ = false) :=
  ⟨by decide,
    C2_exclusion_iff [(1, [⟨0, some 0⟩, ⟨1, some 2⟩, ⟨2, some 0⟩])] (by decide)
      (1, calcDistanceUnit [⟨0, some 0⟩, ⟨1, some 2⟩, ⟨2, some 0⟩]) (by decide)
      ⟨1, some 2, 0, 1, 0⟩ (by decide)⟩

/-- C9 witness: the distance columns evaluated on a small unit are
non-negative and the disabled radius excludes nothing. -/
theorem C9_witness :
    (calcDistanceFrame [(1, [⟨0, some 0⟩, ⟨1, some 2⟩, ⟨2, some 0⟩])] =
      [(1, [⟨0, some 0, 24, 2, 2⟩, ⟨1, some 2, 0, 1, 0⟩, ⟨2, some 0, 1, 0, 0⟩])]) ∧
    (0 ≤ (⟨0, some 0, 24, 2, 2⟩ : DistRow).hoursFromStartup ∧
     0 ≤ (⟨0, some 0, 24, 2, 2⟩ : DistRow).hoursToShutdown ∧
     0 ≤ (⟨0, some 0, 24, 2, 2⟩ : DistRow).hoursDistance ∧
     exclude_ramp TechType.gas_turbine ⟨0, some 0, 24, 2, 2⟩ = false ∧
     exclude_ramp TechType.internal_combustion ⟨0, some 0, 24, 2, 2⟩ = false) :=
  ⟨by decide,
    C9_distances_nonneg [(1, [⟨0, some 0⟩, ⟨1, some 2⟩, ⟨2, some 0⟩])] (by decide)
      (by decide)
      (1, calcDistanceUnit [⟨0, some 0⟩, ⟨1, some 2⟩, ⟨2, some 0⟩]) (by decide)
      ⟨0, some 0, 24, 2, 2⟩ (by decide)⟩

/-- C10: `calc_distance_from_downtime(classify_startup=True)` is deterministic
across runs.  A run's ambient randomness is modelled by the generator stream
`ℕ → ℕ → List Bool` (seed ↦ draw count ↦ draws); `numpy.random.default_rng`
is a pure function of its seed, and the code passes the literal seed 42, so
two runs whose streams agree at seed 42 — in particular two runs of the same
numpy version with whatever entropy elsewhere — produce identical
`nearest_to_startup` columns on equal inputs. -/
theorem C10_deterministic (s1 s2 : ℕ → ℕ → List Bool)
    (units : List (ℤ × List CemsRow)) (h42 : s1 42 = s2 42) :
    nearest_to_startup s1 units = nearest_to_startup s2 units := by
  unfold nearest_to_startup
  rw [h42]

/-- C10 witness: two streams that differ away from seed 42 but agree at 42
give the same classification. -/
theorem C10_witness :
    nearest_to_startup (fun _ n => List.replicate n true)
      [(1, [⟨0, some 1⟩, ⟨1, some 0⟩])] =
    nearest_to_startup (fun s n => if s = 0 then [] else List.replicate n true)
      [(1, [⟨0, some 1⟩, ⟨1, some 0⟩])] :=
  C10_deterministic _ _ _ (by funext n; simp)

/-! ## Lemmas about the fuel-type mapping -/

theorem count_none_le (mapping : List (String × String)) :
    ∀ (col : List (Option String)),
      col.countP (·.isNone) ≤ (col.map (mapFuelCode mapping)).countP (·.isNone) := by
  intro col
  induction col with
  | nil => simp
  | cons c cr ih =>
    rw [List.map_cons, List.countP_cons, List.countP_cons]
    cases c with
    | none =>
      rw [show mapFuelCode mapping none = none from rfl]
      omega
    | some s =>
      rw [show mapFuelCode mapping (some s) = mapping.lookup s from rfl]
      simp only [Option.isNone_some, Bool.false_eq_true, if_false]
      omega

theorem count_none_lt_iff (mapping : List (String × String)) :
    ∀ (col : List (Option String)),
      (col.countP (·.isNone) < (col.map (mapFuelCode mapping)).countP (·.isNone)) ↔
      ∃ s, some s ∈ col ∧ mapping.lookup s = none := by
  intro col
  induction col with
  | nil => simp
  | cons c cr ih =>
    rw [List.map_cons, List.countP_cons, List.countP_cons]
    cases c with
    | none =>
      rw [show mapFuelCode mapping none = none from rfl]
      constructor
      · intro h
        obtain ⟨s, hs, hl⟩ := ih.mp (by omega)
        exact ⟨s, List.mem_cons_of_mem _ hs, hl⟩
      · rintro ⟨s, hs, hl⟩
        rcases List.mem_cons.mp hs with h | h
        · exact absurd h (by simp)
        · have := ih.mpr ⟨s, h, hl⟩
          omega
    | some s =>
      rw [show mapFuelCode mapping (some s) = mapping.lookup s from rfl]
      simp only [Option.isNone_some, Bool.false_eq_true, if_false]
      cases hl : mapping.lookup s with
      | none =>
        have hle := count_none_le mapping cr
        simp only [Option.isNone_none, if_pos rfl]
        constructor
        · intro _
          exact ⟨s, List.mem_cons_self _ _, hl⟩
        · intro _
          simp only [if_true]
          omega
      | some v =>
        simp only [Option.isNone_some, Bool.false_eq_true, if_false]
        constructor
        · intro h
          obtain ⟨w, hw, hlw⟩ := ih.mp (by omega)
          exact ⟨w, List.mem_cons_of_mem _ hw, hlw⟩
        · rintro ⟨w, hw, hlw⟩
          rcases List.mem_cons.mp hw with h | h
          · injection h with h
            subst h
            rw [hl] at hlw
            exact absurd hlw (by simp)
          · have := ih.mpr ⟨w, h, hlw⟩
            omega

/-- C6: the fuel-mapping step of `aggregate_subcomponents` raises iff some
non-missing raw fuel code (combustor-side `CAMD_FUEL_TYPE` or generator-side
`EIA_FUEL_TYPE`) is absent from its mapping table; when every non-missing code
is present, it never raises and never coalesces a code to missing — each
non-missing code maps to its table entry. -/
theorem C6_fuel_unmapped_raises (camd eia : List (Option String)) :
    ((∃ s, aggregate_subcomponents_fuel camd eia = .error s) ↔
      (∃ s, some s ∈ camd ∧ CAMD_FUEL_MAP.lookup s = none) ∨
      (∃ s, some s ∈ eia ∧ EIA_FUEL_MAP.lookup s = none)) ∧
    (∀ c e, aggregate_subcomponents_fuel camd eia = .ok (c, e) →
      c = camd.map (mapFuelCode CAMD_FUEL_MAP) ∧
      e = eia.map (mapFuelCode EIA_FUEL_MAP) ∧
      (∀ i s, camd.get? i = some (some s) →
        ∃ v, CAMD_FUEL_MAP.lookup s = some v ∧ c.get? i = some (some v)) ∧
      (∀ i s, eia.get? i = some (some s) →
        ∃ v, EIA_FUEL_MAP.lookup s = some v ∧ e.get? i = some (some v))) := by
  have hcamd := count_none_lt_iff CAMD_FUEL_MAP camd
  have heia := count_none_lt_iff EIA_FUEL_MAP eia
  unfold aggregate_subcomponents_fuel checkFuelColumn
  by_cases h1 : camd.countP (·.isNone) <
      (camd.map (mapFuelCode CAMD_FUEL_MAP)).countP (·.isNone)
  · rw [if_pos h1]
    refine ⟨⟨fun _ => Or.inl (hcamd.mp h1), fun _ => ⟨_, rfl⟩⟩, ?_⟩
    intro c e h
    exact absurd h (by simp [Bind.bind, Except.bind])
  · rw [if_neg h1]
    by_cases h2 : eia.countP (·.isNone) <
        (eia.map (mapFuelCode EIA_FUEL_MAP)).countP (·.isNone)
    · rw [if_pos h2]
      refine ⟨⟨fun _ => Or.inr (heia.mp h2), fun _ => ⟨_, rfl⟩⟩, ?_⟩
      intro c e h
      exact absurd h (by simp [Bind.bind, Except.bind])
    · rw [if_neg h2]
      constructor
      · constructor
        · rintro ⟨s, hs⟩
          exact absurd hs (by simp [Bind.bind, Except.bind, pure, Except.pure])
        · rintro (ha | hb)
          · exact absurd (hcamd.mpr ha) h1
          · exact absurd (heia.mpr hb) h2
      · intro c e h
        have hok : Except.ok (ε := String)
            (camd.map (mapFuelCode CAMD_FUEL_MAP), eia.map (mapFuelCode EIA_FUEL_MAP)) =
            Except.ok (c, e) := h
        injection hok with hok
        obtain ⟨rfl, rfl⟩ := Prod.mk.injEq .. |>.mp hok
        refine ⟨rfl, rfl, ?_, ?_⟩
        · intro i s hi
          cases hl : CAMD_FUEL_MAP.lookup s with
          | none =>
            exact absurd (hcamd.mpr ⟨s, List.get?_mem hi, hl⟩) h1
          | some v =>
            refine ⟨v, rfl, ?_⟩
            rw [List.get?_map, hi]
            simp [mapFuelCode, hl]
        · intro i s hi
          cases hl : EIA_FUEL_MAP.lookup s with
          | none =>
            exact absurd (heia.mpr ⟨s, List.get?_mem hi, hl⟩) h2
          | some v =>
            refine ⟨v, rfl, ?_⟩
            rw [List.get?_map, hi]
            simp [mapFuelCode, hl]

/-- C6 witness: a code absent from the table (`"XYZ"`) raises, and a mapped
table (`"Coal"`, `"NG"`) maps without coalescing. -/
theorem C6_witness :
    (∃ s, aggregate_subcomponents_fuel [some "XYZ"] [] = Except.error s) ∧
    ∃ v, CAMD_FUEL_MAP.lookup "Coal" = some v ∧
      ([some "Coal", none].map (mapFuelCode CAMD_FUEL_MAP)).get? 0 = some (some v) :=
  ⟨(C6_fuel_unmapped_raises [some "XYZ"] []).1.mpr
      (Or.inl ⟨"XYZ", by decide, by decide⟩),
    ((C6_fuel_unmapped_raises [some "Coal", none] []).2
      ([some "Coal", none].map (mapFuelCode CAMD_FUEL_MAP))
      ([].map (mapFuelCode EIA_FUEL_MAP)) (by decide)).2.2.1 0 "Coal" (by decide)⟩

/-! ## Lemmas about the ramp-extrema aggregation -/

theorem nodup_key_unique {α β : Type} [DecidableEq α] :
    ∀ (l : List (α × β)), (l.map Prod.fst).Nodup →
      ∀ (a : α) (b1 b2 : β), (a, b1) ∈ l → (a, b2) ∈ l → b1 = b2 := by
  intro l
  induction l with
  | nil => intro _ a b1 b2 h1; simp at h1
  | cons x xs ih =>
    intro hnd a b1 b2 h1 h2
    rw [List.map_cons, List.nodup_cons] at hnd
    rcases List.mem_cons.mp h1 with h1 | h1 <;> rcases List.mem_cons.mp h2 with h2 | h2
    · rw [← h1] at h2
      injection h2 with _ h2
      exact h2.symm
    · exact absurd (List.mem_map.mpr ⟨(a, b2), h2, by rw [← h1]⟩) hnd.1
    · exact absurd (List.mem_map.mpr ⟨(a, b1), h1, by rw [← h2]⟩) hnd.1
    · exact ih hnd.2 a b1 b2 h1 h2

theorem find?_key_of_mem_nodup {β : Type} :
    ∀ (l : List (ℤ × β)), (l.map Prod.fst).Nodup →
      ∀ (a : ℤ) (b : β), (a, b) ∈ l →
        (l.find? fun p => p.1 = a) = some (a, b) := by
  intro l
  induction l with
  | nil => intro _ a b h; simp at h
  | cons x xs ih =>
    intro hnd a b hm
    rw [List.map_cons, List.nodup_cons] at hnd
    rcases List.mem_cons.mp hm with hm | hm
    · rw [← hm]
      exact List.find?_cons_of_pos _ (by simp)
    · by_cases hx : x.1 = a
      · exact absurd (List.mem_map.mpr ⟨(a, b), hm, rfl⟩) (hx ▸ hnd.1)
      · rw [List.find?_cons_of_neg _ (by simpa using hx)]
        exact ih hnd.2 a b hm

/-- structural specification of a successful `processRamps` run: the result
has one entry per component with a non-empty filtered group, carrying that
group's aggregation. -/
theorem processRamps_spec :
    ∀ (comps : List (ℤ × List CtsRow)) (res : List (ℤ × RampStats)),
      processRamps comps = .ok res →
      (∀ cid s, (cid, s) ∈ res →
        ∃ rows, (cid, rows) ∈ comps ∧ filteredRamps rows ≠ [] ∧
          aggGroup (filteredRamps rows) = .ok s) ∧
      (∀ cid rows, (cid, rows) ∈ comps → filteredRamps rows ≠ [] →
        ∃ s, aggGroup (filteredRamps rows) = .ok s ∧ (cid, s) ∈ res) ∧
      (res.map Prod.fst).Sublist (comps.map Prod.fst) := by
  intro comps
  induction comps with
  | nil =>
    intro res h
    have hres : res = [] := by
      have : Except.ok (ε := String) ([] : List (ℤ × RampStats)) = .ok res := h
      injection this with this
      exact this.symm
    subst hres
    exact ⟨by simp, by simp, by simp⟩
  | cons hd rest ih =>
    obtain ⟨cid, rows⟩ := hd
    intro res h
    unfold processRamps at h
    split at h
    · next hemp =>
      have hfe : filteredRamps rows = [] := List.isEmpty_iff.mp hemp
      obtain ⟨ih1, ih2, ih3⟩ := ih res h
      refine ⟨?_, ?_, ?_⟩
      · intro cid' s hm
        obtain ⟨rows', hr, hne, hagg⟩ := ih1 cid' s hm
        exact ⟨rows', List.mem_cons_of_mem _ hr, hne, hagg⟩
      · intro cid' rows' hm hne
        rcases List.mem_cons.mp hm with heq | hm
        · injection heq with h1 h2
          subst h1
          subst h2
          exact absurd hfe hne
        · exact ih2 cid' rows' hm hne
      · exact ih3.cons _
    · next hemp =>
      have hne : filteredRamps rows ≠ [] := fun he => hemp (List.isEmpty_iff.mpr he)
      cases hagg : aggGroup (filteredRamps rows) with
      | error e =>
        rw [hagg] at h
        exact absurd h (by simp [Bind.bind, Except.bind])
      | ok s =>
        rw [hagg] at h
        cases hrest : processRamps rest with
        | error e =>
          rw [hrest] at h
          exact absurd h (by simp [Bind.bind, Except.bind])
        | ok tail =>
          rw [hrest] at h
          have hres : (cid, s) :: tail = res := by
            have : Except.ok (ε := String) ((cid, s) :: tail) = .ok res := h
            injection this
          subst hres
          obtain ⟨ih1, ih2, ih3⟩ := ih tail hrest
          refine ⟨?_, ?_, ?_⟩
          · intro cid' s' hm
            rcases List.mem_cons.mp hm with heq | hm
            · injection heq with h1 h2
              subst h1
              subst h2
              exact ⟨rows, List.mem_cons_self _ _, hne, hagg⟩
            · obtain ⟨rows', hr, hne', hagg'⟩ := ih1 cid' s' hm
              exact ⟨rows', List.mem_cons_of_mem _ hr, hne', hagg'⟩
          · intro cid' rows' hm hne'
            rcases List.mem_cons.mp hm with heq | hm
            · injection heq with h1 h2
              subst h1
              subst h2
              exact ⟨s, hagg, List.mem_cons_self _ _⟩
            · obtain ⟨s', hs', hms'⟩ := ih2 cid' rows' hm hne'
              exact ⟨s', hs', List.mem_cons_of_mem _ hms'⟩
          · exact ih3.cons₂ _

/-- a group with a non-missing value aggregates successfully, to the max/min
of its non-missing values with the timestamps of their first occurrences. -/
theorem aggGroup_ok (g : List (ℤ × Option ℤ)) (mx mn : ℤ)
    (hmx : (g.filterMap (·.2)).max? = some mx)
    (hmn : (g.filterMap (·.2)).min? = some mn) :
    ∃ pmax pmin, g.find? (fun p => p.2 = some mx) = some pmax ∧
      g.find? (fun p => p.2 = some mn) = some pmin ∧
      aggGroup g = .ok ⟨some mx, some mn, pmax.1, pmin.1⟩ := by
  have hmxm := List.max?_mem max_choice hmx
  have hmnm := List.min?_mem min_choice hmn
  obtain ⟨pmax, hpmax, hp2⟩ := List.mem_filterMap.mp hmxm
  obtain ⟨pmin, hqmin, hq2⟩ := List.mem_filterMap.mp hmnm
  have hf1 : ∃ y, g.find? (fun p => p.2 = some mx) = some y := by
    cases hf : g.find? (fun p => p.2 = some mx) with
    | none =>
      rw [List.find?_eq_none] at hf
      exact absurd (by simpa using hp2) (by simpa using hf pmax hpmax)
    | some y => exact ⟨y, rfl⟩
  have hf2 : ∃ y, g.find? (fun p => p.2 = some mn) = some y := by
    cases hf : g.find? (fun p => p.2 = some mn) with
    | none =>
      rw [List.find?_eq_none] at hf
      exact absurd (by simpa using hq2) (by simpa using hf pmin hqmin)
    | some y => exact ⟨y, rfl⟩
  obtain ⟨ymax, hymax⟩ := hf1
  obtain ⟨ymin, hymin⟩ := hf2
  refine ⟨ymax, ymin, hymax, hymin, ?_⟩
  unfold aggGroup
  rw [hmx, hmn]
  dsimp only
  rw [hymax, hymin]

theorem processRamps_isOk (comps : List (ℤ × List CtsRow))
    (hgood : ∀ p ∈ comps, filteredRamps p.2 ≠ [] → ∃ q ∈ filteredRamps p.2, q.2 ≠ none) :
    ∃ res, processRamps comps = .ok res := by
  induction comps with
  | nil => exact ⟨[], rfl⟩
  | cons hd rest ih =>
    obtain ⟨cid, rows⟩ := hd
    obtain ⟨tail, htail⟩ := ih fun p hp => hgood p (List.mem_cons_of_mem _ hp)
    unfold processRamps
    split
    · exact ⟨tail, htail⟩
    · next hemp =>
      have hne : filteredRamps rows ≠ [] := fun he => hemp (List.isEmpty_iff.mpr he)
      obtain ⟨q, hq, hqne⟩ := hgood (cid, rows) (List.mem_cons_self _ _) hne
      obtain ⟨v, hv⟩ : ∃ v, q.2 = some v := by
        cases hq2 : q.2 with
        | none => exact absurd hq2 hqne
        | some v => exact ⟨v, rfl⟩
      have hvs : v ∈ (filteredRamps rows).filterMap (·.2) :=
        List.mem_filterMap.mpr ⟨q, hq, hv⟩
      have hvsne : (filteredRamps rows).filterMap (·.2) ≠ [] := by
        intro he
        rw [he] at hvs
        simp at hvs
      obtain ⟨mx, hmx⟩ : ∃ mx, ((filteredRamps rows).filterMap (·.2)).max? = some mx := by
        cases hm : ((filteredRamps rows).filterMap (·.2)).max? with
        | none => exact absurd (List.max?_eq_none_iff.mp hm) hvsne
        | some mx => exact ⟨mx, rfl⟩
      obtain ⟨mn, hmn⟩ : ∃ mn, ((filteredRamps rows).filterMap (·.2)).min? = some mn := by
        cases hm : ((filteredRamps rows).filterMap (·.2)).min? with
        | none => exact absurd (List.min?_eq_none_iff.mp hm) hvsne
        | some mn => exact ⟨mn, rfl⟩
      obtain ⟨pmax, pmin, -, -, hagg⟩ := aggGroup_ok _ mx mn hmx hmn
      refine ⟨(cid, ⟨some mx, some mn, pmax.1, pmin.1⟩) :: tail, ?_⟩
      rw [hagg, htail]
      simp [Bind.bind, Except.bind, pure, Except.pure]

/-- C4 (amended): a component whose ramp samples after exclusion are EMPTY is
simply absent from the grouped aggregation, so the left join yields missing
max, min, argmax-timestamp and argmin-timestamp for it, and no error is
raised — provided every component that does retain samples after exclusion
retains at least one non-missing ramp value.  (A retained all-missing group
raises instead; see the counterexample.) -/
theorem C4_empty_after_exclusion (comps : List (ℤ × List CtsRow))
    (hnodup : (comps.map Prod.fst).Nodup)
    (hgood : ∀ p ∈ comps, filteredRamps p.2 ≠ [] →
      ∃ q ∈ filteredRamps p.2, q.2 ≠ none) :
    (∃ res, process_partition_ramps comps = .ok res) ∧
    (∀ res, process_partition_ramps comps = .ok res →
      ∀ cid rows, (cid, rows) ∈ comps → filteredRamps rows = [] →
        lookupAgg res cid = none) := by
  constructor
  · obtain ⟨res, hres⟩ := processRamps_isOk comps hgood
    refine ⟨res.map fun p => (p.1, maxAbsRow p.2), ?_⟩
    unfold process_partition_ramps
    rw [hres]
    rfl
  · intro res hres cid rows hm hemp
    unfold process_partition_ramps at hres
    cases hinner : processRamps comps with
    | error e =>
      rw [hinner] at hres
      exact absurd hres (by simp [Except.map])
    | ok inner =>
      rw [hinner] at hres
      have hres' : inner.map (fun p => (p.1, maxAbsRow p.2)) = res := by
        simpa [Except.map] using hres
      subst hres'
      cases hlk : lookupAgg (inner.map fun p => (p.1, maxAbsRow p.2)) cid with
      | none => rfl
      | some f =>
        exfalso
        unfold lookupAgg at hlk
        cases hfind : (inner.map fun p => (p.1, maxAbsRow p.2)).find?
            (fun p => p.1 = cid) with
        | none =>
          rw [hfind] at hlk
          simp at hlk
        | some y =>
          have hy1 : y.1 = cid := by simpa using List.find?_some hfind
          have hym := List.mem_of_find?_eq_some hfind
          obtain ⟨p, hp, hpy⟩ := List.mem_map.mp hym
          have hp1 : p.1 = cid := by
            rw [← hy1, ← hpy]
          obtain ⟨rows', hr', hne', -⟩ :=
            (processRamps_spec comps inner hinner).1 p.1 p.2 (by simpa using hp)
          rw [hp1] at hr'
          have : rows' = rows := nodup_key_unique comps hnodup cid rows' rows hr' hm
          rw [this] at hne'
          exact hne' hemp

/-- C4 counterexample: a component with a single retained sample has one row
whose ramp is missing (the group diff has no predecessor), so the group is
non-empty but all-missing, and the aggregation raises instead of yielding
missing extrema. -/
theorem C4_counterexample :
    filteredRamps [⟨0, 5, false⟩] = [(0, none)] ∧
    process_partition_ramps [(0, [⟨0, 5, false⟩])] =
      .error "idxmax of an all-NaN group raises" := by decide

/-- C4 witness: with every sample excluded, both components are absent from
the aggregation, the run does not raise, and the join yields missing. -/
theorem C4_witness :
    (∃ res, process_partition_ramps [(0, [⟨0, 5, true⟩]), (1, [⟨1, 4, true⟩])] =
      .ok res) ∧
    lookupAgg [] 0 = none :=
  ⟨(C4_empty_after_exclusion [(0, [⟨0, 5, true⟩]), (1, [⟨1, 4, true⟩])]
      (by decide) (by decide)).1,
   (C4_empty_after_exclusion [(0, [⟨0, 5, true⟩]), (1, [⟨1, 4, true⟩])]
      (by decide) (by decide)).2 [] (by decide) 0 [⟨0, 5, true⟩]
      (by decide) (by decide)⟩

/-- C8: for every component whose non-excluded ramp values have a (non-missing)
max `mx` and min `mn`, the joined aggregate row carries `max = mx`, `min = mn`,
the timestamps of their first occurrences, `max_abs = max(|mx|, |mn|)`, and
the attributed timestamp `idxmax_abs` equal to the argmax-timestamp when
`mx ≥ |mn|` (a tie goes to the argmax side) and to the argmin-timestamp
otherwise. -/
theorem C8_maxabs_tie (comps : List (ℤ × List CtsRow))
    (hnodup : (comps.map Prod.fst).Nodup)
    (res : List (ℤ × FullRow)) (hres : process_partition_ramps comps = .ok res)
    (cid : ℤ) (rows : List CtsRow) (hm : (cid, rows) ∈ comps)
    (mx mn : ℤ)
    (hmx : ((filteredRamps rows).filterMap (·.2)).max? = some mx)
    (hmn : ((filteredRamps rows).filterMap (·.2)).min? = some mn) :
    ∃ full, lookupAgg res cid = some full ∧
      full.max = some mx ∧ full.min = some mn ∧
      (∃ p ∈ filteredRamps rows, p.2 = some mx ∧ full.idxmax = p.1) ∧
      (∃ p ∈ filteredRamps rows, p.2 = some mn ∧ full.idxmin = p.1) ∧
      full.max_abs = some ((Max.max |mx| |mn| : ℤ)) ∧
      full.idxmax_abs = (if |mn| ≤ mx then full.idxmax else full.idxmin) := by
  unfold process_partition_ramps at hres
  cases hinner : processRamps comps with
  | error e =>
    rw [hinner] at hres
    exact absurd hres (by simp [Except.map])
  | ok inner =>
    rw [hinner] at hres
    have hres' : inner.map (fun p => (p.1, maxAbsRow p.2)) = res := by
      simpa [Except.map] using hres
    subst hres'
    have hfne : filteredRamps rows ≠ [] := by
      intro he
      rw [he] at hmx
      simp at hmx
    obtain ⟨s, hsagg, hsmem⟩ :=
      (processRamps_spec comps inner hinner).2.1 cid rows hm hfne
    obtain ⟨pmax, pmin, hfmax, hfmin, hagg⟩ := aggGroup_ok _ mx mn hmx hmn
    have hs : s = ⟨some mx, some mn, pmax.1, pmin.1⟩ := by
      rw [hagg] at hsagg
      injection hsagg with h
      exact h.symm
    subst hs
    have hnd : (inner.map Prod.fst).Nodup :=
      ((processRamps_spec comps inner hinner).2.2).nodup hnodup
    have hmem2 : (cid,
        maxAbsRow ⟨some mx, some mn, pmax.1, pmin.1⟩) ∈
        inner.map (fun p => (p.1, maxAbsRow p.2)) :=
      List.mem_map.mpr ⟨(cid, ⟨some mx, some mn, pmax.1, pmin.1⟩), hsmem, rfl⟩
    have hmapfst : ((inner.map fun p => (p.1, maxAbsRow p.2)).map Prod.fst).Nodup := by
      rw [List.map_map]
      exact hnd
    have hfind := find?_key_of_mem_nodup _ hmapfst cid _ hmem2
    refine ⟨maxAbsRow ⟨some mx, some mn, pmax.1, pmin.1⟩, ?_, rfl, rfl, ?_, ?_, ?_, ?_⟩
    · unfold lookupAgg
      rw [hfind]
      rfl
    · exact ⟨pmax, List.mem_of_find?_eq_some hfmax,
        by simpa using List.find?_some hfmax, rfl⟩
    · exact ⟨pmin, List.mem_of_find?_eq_some hfmin,
        by simpa using List.find?_some hfmin, rfl⟩
    · simp [maxAbsRow]
    · by_cases hcond : |mn| ≤ mx <;> simp [maxAbsRow, hcond]

/-- C8 witness: on a component with ramps `[+2, -1]`, `max_abs = 2` and the
tie-break attributes the timestamp of the max. -/
theorem C8_witness :
    ∃ full, lookupAgg [(0, ⟨some 2, some (-1), 1, 2, some 2, 1⟩)] 0 = some full ∧
      full.max = some 2 ∧ full.min = some (-1) ∧
      (∃ p ∈ filteredRamps [⟨0, 1, false⟩, ⟨1, 3, false⟩, ⟨2, 2, false⟩],
        p.2 = some 2 ∧ full.idxmax = p.1) ∧
      (∃ p ∈ filteredRamps [⟨0, 1, false⟩, ⟨1, 3, false⟩, ⟨2, 2, false⟩],
        p.2 = some (-1) ∧ full.idxmin = p.1) ∧
      full.max_abs = some ((Max.max |(2 : ℤ)| |(-1 : ℤ)| : ℤ)) ∧
      full.idxmax_abs = (if |(-1 : ℤ)| ≤ 2 then full.idxmax else full.idxmin) :=
  C8_maxabs_tie [(0, [⟨0, 1, false⟩, ⟨1, 3, false⟩, ⟨2, 2, false⟩])] (by decide)
    [(0, ⟨some 2, some (-1), 1, 2, some 2, 1⟩)] (by decide)
    0 [⟨0, 1, false⟩, ⟨1, 3, false⟩, ⟨2, 2, false⟩] (by decide)
    2 (-1) (by decide) (by decide)

/-! ## Lemmas about the component graph -/

theorem mem_stepFold (s : Finset ℕ) (x : ℕ) :
    ∀ (es : List (ℕ × ℕ)) (acc : Finset ℕ),
      (x ∈ es.foldr (fun e a =>
        (if e.1 ∈ s then {e.2} else ∅) ∪ (if e.2 ∈ s then {e.1} else ∅) ∪ a) acc) ↔
      (x ∈ acc ∨ ∃ e ∈ es, (e.1 ∈ s ∧ x = e.2) ∨ (e.2 ∈ s ∧ x = e.1)) := by
  intro es
  induction es with
  | nil => intro acc; simp
  | cons e es ih =>
    intro acc
    rw [List.foldr_cons, Finset.mem_union, Finset.mem_union, ih]
    by_cases h1 : e.1 ∈ s <;> by_cases h2 : e.2 ∈ s <;>
      simp [h1, h2, List.mem_cons] <;> aesop

theorem mem_stepF (es : List (ℕ × ℕ)) (s : Finset ℕ) (x : ℕ) :
    x ∈ stepF es s ↔
      x ∈ s ∨ ∃ e ∈ es, (e.1 ∈ s ∧ x = e.2) ∨ (e.2 ∈ s ∧ x = e.1) := by
  unfold stepF
  rw [Finset.mem_union, mem_stepFold]
  simp

theorem subset_stepF (es : List (ℕ × ℕ)) (s : Finset ℕ) : s ⊆ stepF es s := by
  unfold stepF
  exact Finset.subset_union_left

theorem iterate_subset_succ (es : List (ℕ × ℕ)) (s : Finset ℕ) (k : ℕ) :
    (stepF es)^[k] s ⊆ (stepF es)^[k + 1] s := by
  rw [Function.iterate_succ_apply']
  exact subset_stepF es _

theorem subset_iterate (es : List (ℕ × ℕ)) (s : Finset ℕ) (k : ℕ) :
    s ⊆ (stepF es)^[k] s := by
  induction k with
  | zero => simp
  | succ k ih => exact subset_trans ih (iterate_subset_succ es s k)

theorem iterate_stab (es : List (ℕ × ℕ)) (s : Finset ℕ) (k : ℕ)
    (h : (stepF es)^[k + 1] s = (stepF es)^[k] s) :
    ∀ m, k ≤ m → (stepF es)^[m] s = (stepF es)^[k] s := by
  intro m
  induction m with
  | zero =>
    intro hm
    have : k = 0 := by omega
    rw [this]
  | succ m ih =>
    intro hm
    rcases Nat.lt_or_ge k (m + 1) with hk | hk
    · have := ih (by omega)
      rw [Function.iterate_succ_apply', this,
        ← Function.iterate_succ_apply' (stepF es) k s, h]
    · have : k = m + 1 := by omega
      rw [this]

theorem endpoints_mem_nodeFinset (es : List (ℕ × ℕ)) (e : ℕ × ℕ) (he : e ∈ es) :
    e.1 ∈ nodeFinset es ∧ e.2 ∈ nodeFinset es := by
  unfold nodeFinset
  constructor <;> rw [List.mem_toFinset]
  · exact List.mem_append_left _ (List.mem_map.mpr ⟨e, he, rfl⟩)
  · exact List.mem_append_right _ (List.mem_map.mpr ⟨e, he, rfl⟩)

theorem iterate_subset_nodes (es : List (ℕ × ℕ)) (v : ℕ) (k : ℕ) :
    (stepF es)^[k] {v} ⊆ insert v (nodeFinset es) := by
  induction k with
  | zero => simp
  | succ k ih =>
    rw [Function.iterate_succ_apply']
    intro x hx
    rw [mem_stepF] at hx
    rcases hx with hx | ⟨e, he, h⟩
    · exact ih hx
    · rcases h with ⟨-, rfl⟩ | ⟨-, rfl⟩
      · exact Finset.mem_insert_of_mem (endpoints_mem_nodeFinset es e he).2
      · exact Finset.mem_insert_of_mem (endpoints_mem_nodeFinset es e he).1

theorem exists_stable (es : List (ℕ × ℕ)) (v : ℕ) :
    ∃ k ≤ (nodeFinset es).card + 1,
      (stepF es)^[k + 1] {v} = (stepF es)^[k] {v} := by
  by_contra hcon
  push_neg at hcon
  have hgrow : ∀ k, k ≤ (nodeFinset es).card + 1 →
      k + 1 ≤ ((stepF es)^[k] ({v} : Finset ℕ)).card := by
    intro k
    induction k with
    | zero => intro _; simp
    | succ k ih =>
      intro hk
      have h1 := ih (by omega)
      have hne := hcon k (by omega)
      have hsub := iterate_subset_succ es ({v} : Finset ℕ) k
      have hlt : ((stepF es)^[k] ({v} : Finset ℕ)).card <
          ((stepF es)^[k + 1] ({v} : Finset ℕ)).card :=
        Finset.card_lt_card (Finset.ssubset_iff_subset_ne.mpr ⟨hsub, fun he => hne he.symm⟩)
      omega
  have h1 := hgrow ((nodeFinset es).card + 1) (le_refl _)
  have h2 : ((stepF es)^[(nodeFinset es).card + 1] ({v} : Finset ℕ)).card ≤
      (insert v (nodeFinset es)).card :=
    Finset.card_le_card (iterate_subset_nodes es v _)
  have h3 : (insert v (nodeFinset es)).card ≤ (nodeFinset es).card + 1 :=
    Finset.card_insert_le _ _
  omega

theorem closure_fixed (es : List (ℕ × ℕ)) (v : ℕ) :
    stepF es (closure es v) = closure es v := by
  obtain ⟨k, hk, hstab⟩ := exists_stable es v
  unfold closure
  rw [← Function.iterate_succ_apply' (stepF es) ((nodeFinset es).card + 1) {v}]
  rw [iterate_stab es {v} k hstab ((nodeFinset es).card + 1 + 1) (by omega),
    iterate_stab es {v} k hstab ((nodeFinset es).card + 1) hk]

theorem mem_closure_self (es : List (ℕ × ℕ)) (v : ℕ) : v ∈ closure es v :=
  subset_iterate es {v} _ (Finset.mem_singleton_self v)

theorem mem_closure_iff_rtg (es : List (ℕ × ℕ)) (v x : ℕ) :
    x ∈ closure es v ↔ Relation.ReflTransGen (adjP es) v x := by
  constructor
  · have aux : ∀ (k : ℕ) (x : ℕ), x ∈ (stepF es)^[k] ({v} : Finset ℕ) →
        Relation.ReflTransGen (adjP es) v x := by
      intro k
      induction k with
      | zero =>
        intro x hx
        rw [Function.iterate_zero_apply, Finset.mem_singleton] at hx
        rw [hx]
      | succ k ih =>
        intro x hx
        rw [Function.iterate_succ_apply', mem_stepF] at hx
        rcases hx with hx | ⟨e, he, h⟩
        · exact ih x hx
        · rcases h with ⟨h1, rfl⟩ | ⟨h2, rfl⟩
          · exact (ih e.1 h1).tail ⟨e, he, Or.inl ⟨rfl, rfl⟩⟩
          · exact (ih e.2 h2).tail ⟨e, he, Or.inr ⟨rfl, rfl⟩⟩
    exact aux _ x
  · intro h
    induction h with
    | refl => exact mem_closure_self es v
    | tail hab hbc ih =>
      rw [← closure_fixed es v, mem_stepF]
      right
      obtain ⟨e, he, hor⟩ := hbc
      rcases hor with ⟨rfl, rfl⟩ | ⟨rfl, rfl⟩
      · exact ⟨e, he, Or.inl ⟨ih, rfl⟩⟩
      · exact ⟨e, he, Or.inr ⟨ih, rfl⟩⟩

theorem adjP_symm (es : List (ℕ × ℕ)) : Symmetric (adjP es) := by
  rintro u v ⟨e, he, h⟩
  exact ⟨e, he, h.symm⟩

theorem closure_congr (es : List (ℕ × ℕ)) (u v : ℕ)
    (h : Relation.ReflTransGen (adjP es) u v) : closure es u = closure es v := by
  ext x
  rw [mem_closure_iff_rtg, mem_closure_iff_rtg]
  constructor
  · intro hx
    exact (Relation.ReflTransGen.symmetric (adjP_symm es) h).trans hx
  · intro hx
    exact h.trans hx

theorem compRep_mem (es : List (ℕ × ℕ)) (v : ℕ) : compRep es v ∈ closure es v := by
  unfold compRep
  obtain ⟨a, ha⟩ := Finset.min_of_nonempty ⟨v, mem_closure_self es v⟩
  rw [ha, WithTop.untop'_coe]
  exact Finset.mem_of_min ha

theorem compRep_eq_iff (es : List (ℕ × ℕ)) (u v : ℕ) :
    compRep es u = compRep es v ↔ Relation.ReflTransGen (adjP es) u v := by
  constructor
  · intro h
    have h1 := (mem_closure_iff_rtg es u _).mp (compRep_mem es u)
    have h2 := (mem_closure_iff_rtg es v _).mp (compRep_mem es v)
    rw [h] at h1
    exact h1.trans (Relation.ReflTransGen.symmetric (adjP_symm es) h2)
  · intro h
    unfold compRep
    rw [closure_congr es u v h]
    obtain ⟨a, ha⟩ := Finset.min_of_nonempty ⟨v, mem_closure_self es v⟩
    rw [ha, WithTop.untop'_coe, WithTop.untop'_coe]

theorem dedupStep_mem (acc : List (ℕ × ℕ × XRow)) (e : ℕ × ℕ × XRow) :
    ∀ x ∈ dedupStep acc e, x ∈ acc ∨ x = e := by
  intro x hx
  unfold dedupStep at hx
  split at hx
  · obtain ⟨y, hy, hxy⟩ := List.mem_map.mp hx
    by_cases hc : y.1 = e.1 ∧ y.2.1 = e.2.1
    · rw [if_pos hc] at hxy
      exact Or.inr hxy.symm
    · rw [if_neg hc] at hxy
      exact Or.inl (hxy ▸ hy)
  · rcases List.mem_append.mp hx with h | h
    · exact Or.inl h
    · exact Or.inr (by simpa using h)

theorem dedupFold_mem :
    ∀ (l acc : List (ℕ × ℕ × XRow)), ∀ x ∈ List.foldl dedupStep acc l,
      x ∈ acc ∨ x ∈ l := by
  intro l
  induction l with
  | nil => intro acc x hx; exact Or.inl hx
  | cons e es ih =>
    intro acc x hx
    rw [List.foldl_cons] at hx
    rcases ih (dedupStep acc e) x hx with h | h
    · rcases dedupStep_mem acc e x h with h | h
      · exact Or.inl h
      · exact Or.inr (h ▸ List.mem_cons_self _ _)
    · exact Or.inr (List.mem_cons_of_mem _ h)

theorem dedupEdges_subset (l : List (ℕ × ℕ × XRow)) :
    ∀ x ∈ dedupEdges l, x ∈ l := by
  intro x hx
  rcases dedupFold_mem l [] x hx with h | h
  · simp at h
  · exact h

theorem dedupStep_keys (acc : List (ℕ × ℕ × XRow)) (e : ℕ × ℕ × XRow) (k : ℕ × ℕ) :
    (∃ x ∈ dedupStep acc e, (x.1, x.2.1) = k) ↔
      (∃ x ∈ acc, (x.1, x.2.1) = k) ∨ (e.1, e.2.1) = k := by
  unfold dedupStep
  split
  · next hany =>
    obtain ⟨y0, hy0, hc0⟩ := List.any_eq_true.mp hany
    have hc0' : y0.1 = e.1 ∧ y0.2.1 = e.2.1 := by simpa using hc0
    constructor
    · rintro ⟨x, hx, rfl⟩
      obtain ⟨y, hy, hxy⟩ := List.mem_map.mp hx
      by_cases hc : y.1 = e.1 ∧ y.2.1 = e.2.1
      · rw [if_pos hc] at hxy
        subst hxy
        exact Or.inr rfl
      · rw [if_neg hc] at hxy
        subst hxy
        exact Or.inl ⟨y, hy, rfl⟩
    · rintro (⟨x, hx, rfl⟩ | rfl)
      · by_cases hc : x.1 = e.1 ∧ x.2.1 = e.2.1
        · refine ⟨e, List.mem_map.mpr ⟨x, hx, if_pos hc⟩, ?_⟩
          rw [← hc.1, ← hc.2]
        · exact ⟨x, List.mem_map.mpr ⟨x, hx, if_neg hc⟩, rfl⟩
      · refine ⟨e, List.mem_map.mpr ⟨y0, hy0, if_pos hc0'⟩, rfl⟩
  · constructor
    · rintro ⟨x, hx, rfl⟩
      rcases List.mem_append.mp hx with h | h
      · exact Or.inl ⟨x, h, rfl⟩
      · have : x = e := by simpa using h
        subst this
        exact Or.inr rfl
    · rintro (⟨x, hx, rfl⟩ | rfl)
      · exact ⟨x, List.mem_append_left _ hx, rfl⟩
      · exact ⟨e, List.mem_append_right _ (by simp), rfl⟩

theorem dedupFold_keys :
    ∀ (l acc : List (ℕ × ℕ × XRow)) (k : ℕ × ℕ),
      (∃ x ∈ List.foldl dedupStep acc l, (x.1, x.2.1) = k) ↔
        (∃ x ∈ acc, (x.1, x.2.1) = k) ∨ (∃ x ∈ l, (x.1, x.2.1) = k) := by
  intro l
  induction l with
  | nil => intro acc k; simp
  | cons e es ih =>
    intro acc k
    rw [List.foldl_cons, ih, dedupStep_keys]
    constructor
    · rintro ((h | h) | h)
      · exact Or.inl h
      · exact Or.inr ⟨e, List.mem_cons_self _ _, h⟩
      · obtain ⟨x, hx, hk⟩ := h
        exact Or.inr ⟨x, List.mem_cons_of_mem _ hx, hk⟩
    · rintro (h | ⟨x, hx, hk⟩)
      · exact Or.inl (Or.inl h)
      · rcases List.mem_cons.mp hx with rfl | hx
        · exact Or.inl (Or.inr hk)
        · exact Or.inr ⟨x, hx, hk⟩

theorem mem_edgeKeys_dedup (l : List (ℕ × ℕ × XRow)) (k : ℕ × ℕ) :
    k ∈ edgeKeys (dedupEdges l) ↔ k ∈ edgeKeys l := by
  unfold edgeKeys dedupEdges
  rw [List.mem_map, List.mem_map, dedupFold_keys l [] k]
  simp

theorem rtg_adjP_dedup (l : List (ℕ × ℕ × XRow)) (u v : ℕ) :
    Relation.ReflTransGen (adjP (edgeKeys (dedupEdges l))) u v ↔
      Relation.ReflTransGen (adjP (edgeKeys l)) u v := by
  constructor
  · refine Relation.ReflTransGen.mono fun a b hab => ?_
    obtain ⟨e, he, h⟩ := hab
    exact ⟨e, (mem_edgeKeys_dedup l e).mp he, h⟩
  · refine Relation.ReflTransGen.mono fun a b hab => ?_
    obtain ⟨e, he, h⟩ := hab
    exact ⟨e, (mem_edgeKeys_dedup l e).mpr he, h⟩

theorem dedupFold_of_nodup :
    ∀ (l acc : List (ℕ × ℕ × XRow)),
      (l.map fun x => (x.1, x.2.1)).Nodup →
      (∀ x ∈ acc, ∀ y ∈ l, (x.1, x.2.1) ≠ (y.1, y.2.1)) →
      List.foldl dedupStep acc l = acc ++ l := by
  intro l
  induction l with
  | nil => intro acc _ _; simp
  | cons e es ih =>
    intro acc hnd hdisj
    rw [List.map_cons, List.nodup_cons] at hnd
    have hstep : dedupStep acc e = acc ++ [e] := by
      unfold dedupStep
      rw [if_neg]
      intro hany
      obtain ⟨y, hy, hc⟩ := List.any_eq_true.mp hany
      have hc' : y.1 = e.1 ∧ y.2.1 = e.2.1 := by simpa using hc
      exact hdisj y hy e (List.mem_cons_self _ _) (by rw [hc'.1, hc'.2])
    rw [List.foldl_cons, hstep, ih (acc ++ [e]) hnd.2 ?_]
    · rw [List.append_assoc]
      rfl
    · intro x hx y hy
      rcases List.mem_append.mp hx with hx | hx
      · exact hdisj x hx y (List.mem_cons_of_mem _ hy)
      · have : x = e := by simpa using hx
        subst this
        intro hk
        exact hnd.1 (hk ▸ List.mem_map.mpr ⟨y, hy, rfl⟩)

theorem dedupEdges_of_nodup (l : List (ℕ × ℕ × XRow))
    (h : (l.map fun x => (x.1, x.2.1)).Nodup) : dedupEdges l = l := by
  unfold dedupEdges
  rw [dedupFold_of_nodup l [] h (by simp)]
  rfl

theorem compRep_mem_repList (es : List (ℕ × ℕ)) (u : ℕ) (hu : u ∈ nodeList es) :
    compRep es u ∈ repList es := by
  unfold repList
  rw [List.mem_dedup]
  exact List.mem_map.mpr ⟨u, hu, rfl⟩

theorem component_id_eq_iff (es : List (ℕ × ℕ)) (u v : ℕ)
    (hu : u ∈ nodeList es) (hv : v ∈ nodeList es) :
    component_id_of es u = component_id_of es v ↔
      Relation.ReflTransGen (adjP es) u v := by
  unfold component_id_of
  rw [List.indexOf_inj (compRep_mem_repList es u hu) (compRep_mem_repList es v hv)]
  exact compRep_eq_iff es u v

theorem mem_insertNode_self (l : List ℕ) (n : ℕ) : n ∈ insertNode l n := by
  unfold insertNode
  split
  · assumption
  · simp

theorem mem_insertNode_of_mem (l : List ℕ) (m n : ℕ) (h : m ∈ l) : m ∈ insertNode l n := by
  unfold insertNode
  split
  · exact h
  · exact List.mem_append_left _ h

theorem insertNode_nodup (l : List ℕ) (n : ℕ) (h : l.Nodup) : (insertNode l n).Nodup := by
  unfold insertNode
  split
  · exact h
  · next hn =>
    rw [List.nodup_append]
    refine ⟨h, List.nodup_singleton n, fun a ha hb => ?_⟩
    rw [List.mem_singleton] at hb
    subst hb
    exact hn ha

theorem nodeFold_mono (edges : List (ℕ × ℕ × XRow)) :
    ∀ (acc : List ℕ) (m : ℕ), m ∈ acc →
      m ∈ edges.foldl (fun a x => insertNode (insertNode a x.1) x.2.1) acc := by
  induction edges with
  | nil => intro acc m h; exact h
  | cons f fs ih =>
    intro acc m h
    rw [List.foldl_cons]
    exact ih _ m (mem_insertNode_of_mem _ _ _ (mem_insertNode_of_mem _ _ _ h))

theorem endpoints_mem_nodeOrderAux (edges : List (ℕ × ℕ × XRow)) :
    ∀ (acc : List ℕ) (e : ℕ × ℕ × XRow), e ∈ edges →
      e.1 ∈ edges.foldl (fun a x => insertNode (insertNode a x.1) x.2.1) acc ∧
      e.2.1 ∈ edges.foldl (fun a x => insertNode (insertNode a x.1) x.2.1) acc := by
  induction edges with
  | nil => intro acc e he; exact absurd he (List.not_mem_nil e)
  | cons f fs ih =>
    intro acc e he
    rw [List.foldl_cons]
    rcases List.mem_cons.mp he with rfl | he'
    · constructor
      · exact nodeFold_mono fs _ _
          (mem_insertNode_of_mem _ _ _ (mem_insertNode_self _ _))
      · exact nodeFold_mono fs _ _ (mem_insertNode_self _ _)
    · exact ih _ e he'

theorem endpoints_mem_nodeOrder (edges : List (ℕ × ℕ × XRow)) (e : ℕ × ℕ × XRow)
    (he : e ∈ edges) : e.1 ∈ nodeOrderOf edges ∧ e.2.1 ∈ nodeOrderOf edges :=
  endpoints_mem_nodeOrderAux edges [] e he

theorem nodeFold_nodup (edges : List (ℕ × ℕ × XRow)) :
    ∀ acc : List ℕ, acc.Nodup →
      (edges.foldl (fun a x => insertNode (insertNode a x.1) x.2.1) acc).Nodup := by
  induction edges with
  | nil => intro acc h; exact h
  | cons f fs ih =>
    intro acc h
    rw [List.foldl_cons]
    exact ih _ (insertNode_nodup _ _ (insertNode_nodup _ _ h))

theorem nodeOrderOf_nodup (edges : List (ℕ × ℕ × XRow)) : (nodeOrderOf edges).Nodup :=
  nodeFold_nodup edges [] List.nodup_nil

theorem nxEdgeOrder_subset (edges : List (ℕ × ℕ × XRow)) :
    ∀ e ∈ nxEdgeOrder edges, e ∈ edges := by
  intro e he
  unfold nxEdgeOrder at he
  obtain ⟨n, -, hf⟩ := List.mem_flatMap.mp he
  exact (List.mem_filter.mp hf).1

theorem nxEdgeOrder_nodup (edges : List (ℕ × ℕ × XRow)) (h : edges.Nodup) :
    (nxEdgeOrder edges).Nodup := by
  unfold nxEdgeOrder
  rw [List.nodup_flatMap]
  refine ⟨fun n _ => h.filter _, (nodeOrderOf_nodup edges).imp ?_⟩
  intro n n' hne e he he'
  rw [List.mem_filter] at he he'
  have h1 : (e.1 = n ∧ nodePos edges n < nodePos edges e.2.1) ∨
      (e.2.1 = n ∧ nodePos edges n < nodePos edges e.1) := by
    have hg := he.2
    unfold emitAt at hg
    exact of_decide_eq_true hg
  have h2 : (e.1 = n' ∧ nodePos edges n' < nodePos edges e.2.1) ∨
      (e.2.1 = n' ∧ nodePos edges n' < nodePos edges e.1) := by
    have hg := he'.2
    unfold emitAt at hg
    exact of_decide_eq_true hg
  rcases h1 with ⟨ha, hb⟩ | ⟨ha, hb⟩ <;> rcases h2 with ⟨hc, hd⟩ | ⟨hc, hd⟩
  · exact hne (ha.symm.trans hc)
  · rw [ha] at hd
    rw [hc] at hb
    omega
  · rw [hc] at hb
    rw [ha] at hd
    omega
  · exact hne (ha.symm.trans hc)

theorem mem_nxEdgeOrder (edges : List (ℕ × ℕ × XRow)) (e : ℕ × ℕ × XRow)
    (he : e ∈ edges) (hloop : e.1 ≠ e.2.1) : e ∈ nxEdgeOrder edges := by
  obtain ⟨h1, h2⟩ := endpoints_mem_nodeOrder edges e he
  have hpos : nodePos edges e.1 ≠ nodePos edges e.2.1 := by
    intro hp
    unfold nodePos at hp
    exact hloop ((List.indexOf_inj h1 h2).mp hp)
  unfold nxEdgeOrder
  rw [List.mem_flatMap]
  rcases lt_or_gt_of_ne hpos with hlt | hgt
  · refine ⟨e.1, h1, List.mem_filter.mpr ⟨he, ?_⟩⟩
    unfold emitAt
    exact decide_eq_true (Or.inl ⟨rfl, hlt⟩)
  · refine ⟨e.2.1, h2, List.mem_filter.mpr ⟨he, ?_⟩⟩
    unfold emitAt
    exact decide_eq_true (Or.inr ⟨rfl, hgt⟩)

/-- on a graph without self-loops and with pairwise-distinct edges,
the adjacency-traversal order `G.edges()` reports every edge exactly once. -/
theorem nxEdgeOrder_perm (edges : List (ℕ × ℕ × XRow)) (hnd : edges.Nodup)
    (hloop : ∀ e ∈ edges, e.1 ≠ e.2.1) : (nxEdgeOrder edges).Perm edges := by
  rw [List.perm_ext_iff_of_nodup (nxEdgeOrder_nodup edges hnd) hnd]
  intro e
  exact ⟨fun h => nxEdgeOrder_subset edges e h, fun h => mem_nxEdgeOrder edges e h (hloop e h)⟩

theorem keyLt_irrefl (k : ℤ × ℤ) : keyLt k k = false := by
  unfold keyLt
  simp

theorem combustor_id_lt (rows : List XRow) (r : XRow) (hr : r ∈ rows) :
    combustor_id rows r < numCombKeys rows := by
  unfold combustor_id numCombKeys
  rw [List.length_filter_lt_length_iff_exists]
  refine ⟨combKey r, List.mem_dedup.mpr (List.mem_map.mpr ⟨r, hr, rfl⟩), ?_⟩
  rw [keyLt_irrefl]
  simp

/-- no surrogate edge is a self-loop: combustor ids lie strictly below
`numCombKeys` and generator ids at or above it. -/
theorem surrogate_ne (rows : List XRow) (e : ℕ × ℕ × XRow)
    (he : e ∈ surrogateEdges rows) : e.1 ≠ e.2.1 := by
  obtain ⟨r, hr, rfl⟩ := List.mem_map.mp he
  have h1 := combustor_id_lt rows r hr
  have h2 : combustor_id rows r < generator_id rows r := by
    unfold generator_id
    omega
  exact h2.ne

theorem make_subcomponent_mem (rows : List XRow) (a : ℕ × XRow)
    (ha : a ∈ make_subcomponent_ids rows) :
    a.2 ∈ rows ∧
    a.1 = component_id_of (edgeKeys (dedupEdges (surrogateEdges rows)))
      (combustor_id rows a.2) := by
  unfold make_subcomponent_ids at ha
  obtain ⟨e, he, hae⟩ := List.mem_map.mp ha
  have hedge : e ∈ dedupEdges (surrogateEdges rows) := nxEdgeOrder_subset _ e he
  have hesur : e ∈ surrogateEdges rows := dedupEdges_subset _ e hedge
  obtain ⟨r, hr, her⟩ := List.mem_map.mp hesur
  subst hae
  rw [← her]
  exact ⟨hr, rfl⟩

theorem comb_mem_nodeList (rows : List XRow) (r : XRow) (hr : r ∈ rows) :
    combustor_id rows r ∈ nodeList (edgeKeys (dedupEdges (surrogateEdges rows))) := by
  unfold nodeList
  rw [List.mem_dedup]
  refine List.mem_append_left _ (List.mem_map.mpr
    ⟨(combustor_id rows r, generator_id rows r), ?_, rfl⟩)
  rw [mem_edgeKeys_dedup]
  exact List.mem_map.mpr ⟨(combustor_id rows r, generator_id rows r, r),
    List.mem_map.mpr ⟨r, hr, rfl⟩, rfl⟩

theorem row_edge_mem (rows : List XRow) (r : XRow) (hr : r ∈ rows) :
    (combustor_id rows r, generator_id rows r) ∈ edgeKeys (surrogateEdges rows) :=
  List.mem_map.mpr ⟨(combustor_id rows r, generator_id rows r, r),
    List.mem_map.mpr ⟨r, hr, rfl⟩, rfl⟩

/-- C3 (amended): `make_subcomponent_ids` returns one output row per DISTINCT
(combustor, generator) surrogate-id pair — when the input rows' surrogate
pairs are pairwise distinct, every original row appears exactly once (as a
permutation of the input: `to_pandas_edgelist` reports the edges in
adjacency-traversal order, not input order), with exactly one `component_id`
prepended; rows that repeat an earlier pair are collapsed onto that pair's
edge (with the later attributes).  Two output rows receive the same
`component_id` exactly when their surrogate ids are connected in the
crosswalk graph, and no surrogate id belongs to two components. -/
theorem C3_component_partition (rows : List XRow) :
    (((rows.map fun r => (combustor_id rows r, generator_id rows r)).Nodup →
      ((make_subcomponent_ids rows).map Prod.snd).Perm rows)) ∧
    (∀ a ∈ make_subcomponent_ids rows, ∀ b ∈ make_subcomponent_ids rows,
      (a.1 = b.1 ↔ Relation.ReflTransGen (adjP (edgeKeys (surrogateEdges rows)))
        (combustor_id rows a.2) (combustor_id rows b.2))) ∧
    (∀ a ∈ make_subcomponent_ids rows, ∀ b ∈ make_subcomponent_ids rows,
      (combustor_id rows a.2 = combustor_id rows b.2 ∨
        generator_id rows a.2 = generator_id rows b.2) → a.1 = b.1) := by
  have hmain : ∀ a ∈ make_subcomponent_ids rows, ∀ b ∈ make_subcomponent_ids rows,
      (a.1 = b.1 ↔ Relation.ReflTransGen (adjP (edgeKeys (surrogateEdges rows)))
        (combustor_id rows a.2) (combustor_id rows b.2)) := by
    intro a ha b hb
    obtain ⟨har, haid⟩ := make_subcomponent_mem rows a ha
    obtain ⟨hbr, hbid⟩ := make_subcomponent_mem rows b hb
    rw [haid, hbid,
      component_id_eq_iff _ _ _ (comb_mem_nodeList rows a.2 har)
        (comb_mem_nodeList rows b.2 hbr),
      rtg_adjP_dedup]
  refine ⟨?_, hmain, ?_⟩
  · intro hnd
    have hkeys : ((surrogateEdges rows).map fun x => (x.1, x.2.1)).Nodup := by
      unfold surrogateEdges
      rw [List.map_map]
      exact hnd
    have hperm := nxEdgeOrder_perm (surrogateEdges rows)
      (List.Nodup.of_map _ hkeys) (surrogate_ne rows)
    unfold make_subcomponent_ids
    rw [dedupEdges_of_nodup _ hkeys, List.map_map]
    have hmr : (surrogateEdges rows).map (Prod.snd ∘ fun e : ℕ × ℕ × XRow =>
        (component_id_of (edgeKeys (surrogateEdges rows)) e.1, e.2.2)) = rows := by
      simp only [surrogateEdges, List.map_map]
      exact List.map_id rows
    refine (hperm.map (Prod.snd ∘ fun e : ℕ × ℕ × XRow =>
      (component_id_of (edgeKeys (surrogateEdges rows)) e.1, e.2.2))).trans ?_
    rw [hmr]
  · intro a ha b hb hshare
    rw [hmain a ha b hb]
    obtain ⟨har, -⟩ := make_subcomponent_mem rows a ha
    obtain ⟨hbr, -⟩ := make_subcomponent_mem rows b hb
    have hadjA : adjP (edgeKeys (surrogateEdges rows))
        (combustor_id rows a.2) (generator_id rows a.2) :=
      ⟨_, row_edge_mem rows a.2 har, Or.inl ⟨rfl, rfl⟩⟩
    have hadjB : adjP (edgeKeys (surrogateEdges rows))
        (generator_id rows b.2) (combustor_id rows b.2) :=
      ⟨_, row_edge_mem rows b.2 hbr, Or.inr ⟨rfl, rfl⟩⟩
    rcases hshare with hc | hg
    · rw [hc]
    · have h1 : Relation.ReflTransGen (adjP (edgeKeys (surrogateEdges rows)))
          (combustor_id rows a.2) (generator_id rows a.2) :=
        Relation.ReflTransGen.tail Relation.ReflTransGen.refl hadjA
      rw [hg] at h1
      exact h1.tail hadjB

/-- C3 counterexample: two input rows with identical surrogate pairs are
collapsed by `nx.from_pandas_edgelist` into a single edge carrying the second
row's attributes — the first row is not returned, so not every original input
row is returned exactly once. -/
theorem C3_counterexample :
    make_subcomponent_ids [⟨1, 1, 1, 10⟩, ⟨1, 1, 1, 20⟩] = [(0, ⟨1, 1, 1, 20⟩)] ∧
    (⟨1, 1, 1, 10⟩ : XRow) ∉
      (make_subcomponent_ids [⟨1, 1, 1, 10⟩, ⟨1, 1, 1, 20⟩]).map Prod.snd ∧
    (make_subcomponent_ids [⟨1, 1, 1, 10⟩, ⟨1, 1, 1, 20⟩]).length ≠
      ([⟨1, 1, 1, 10⟩, ⟨1, 1, 1, 20⟩] : List XRow).length := by decide

/-- C3 witness: on three rows with distinct surrogate pairs forming two
components, every row is returned exactly once, in adjacency-traversal order
(rows 1 and 3 are incident to the nodes inserted first, so row 3 is reported
before row 2); rows 1 and 3 share a combustor plant/unit and get the same
`component_id`, row 2 is separate. -/
theorem C3_witness :
    make_subcomponent_ids [⟨1, 1, 1, 10⟩, ⟨2, 1, 1, 20⟩, ⟨1, 2, 1, 30⟩] =
      [(1, ⟨1, 1, 1, 10⟩), (1, ⟨1, 2, 1, 30⟩), (0, ⟨2, 1, 1, 20⟩)] ∧
    ((make_subcomponent_ids [⟨1, 1, 1, 10⟩, ⟨2, 1, 1, 20⟩, ⟨1, 2, 1, 30⟩]).map
      Prod.snd).Perm [⟨1, 1, 1, 10⟩, ⟨2, 1, 1, 20⟩, ⟨1, 2, 1, 30⟩] :=
  ⟨by decide,
    (C3_component_partition [⟨1, 1, 1, 10⟩, ⟨2, 1, 1, 20⟩, ⟨1, 2, 1, 30⟩]).1
      (by decide)⟩

end RampRates
